import Mathlib

/-!
Verification of the path-resolution and nested-mutation engine of the
json-mockify repository (`src/controllers/utils.js` and the request handler).

The JavaScript source is shallowly embedded: JSON values become the inductive
`Json`; JavaScript's `undefined` is represented by `Option Json` (`none` =
`undefined`) at the points where the source can produce it; in-place mutation
becomes functional rebuilding of the document tree (sound because a
`JSON.parse`d document is a tree with no sharing); code that can throw a
`TypeError` returns `Except JsError _`.

Known modelling restrictions, each noted again at its definition:
* JSON numbers are modelled as `Int` (the documents and queries exercised by
  the specification use integer fields only; IEEE-754 rounding is not modelled,
  numeric query strings are compared exactly).
* Assignment of a named non-index property on an array is a no-op in the
  model: JavaScript stores it on the array object, but `JSON.stringify`, which
  is how the store persists every document, drops it.  Assigning a canonical
  index at or past the end stores the value and extends the array, the skipped
  slots becoming `null` (JavaScript leaves holes that read as `undefined`,
  which this code's truthiness and equality tests cannot tell from `null`, and
  that stringify persists as `null`).  Assigning `length` a non-negative
  number resizes the array (truncating, or extending with such holes); the
  `RangeError` JavaScript throws for a negative or non-numeric `length` value
  is modelled as leaving the array unchanged, since the thrown request stores
  no document.
* Property access on `null` receivers inside helper traversals that the source
  only reaches behind truthiness guards is modelled as `undefined`.
-/

namespace JsonMockify

/-- A JSON value, as produced by `JSON.parse`: object fields are kept in
insertion order.  `num` is an integer, see the modelling notes above. -/
inductive Json where
  | null
  | bool (b : Bool)
  | num (n : Int)
  | str (s : String)
  | arr (elems : List Json)
  | obj (fields : List (String × Json))
  deriving Repr

namespace Json

mutual

/-- Decidable structural equality of JSON values (deep equality). -/
def decEqJson : (a b : Json) → Decidable (a = b)
  | .null, .null => isTrue rfl
  | .bool a, .bool b =>
    if h : a = b then isTrue (by rw [h]) else isFalse (fun hc => h (by injection hc))
  | .num a, .num b =>
    if h : a = b then isTrue (by rw [h]) else isFalse (fun hc => h (by injection hc))
  | .str a, .str b =>
    if h : a = b then isTrue (by rw [h]) else isFalse (fun hc => h (by injection hc))
  | .arr xs, .arr ys =>
    (match decEqJsonElems xs ys with
      | isTrue h => isTrue (by rw [h])
      | isFalse h => isFalse (fun hc => h (by injection hc)))
  | .obj fs, .obj gs =>
    (match decEqJsonPairs fs gs with
      | isTrue h => isTrue (by rw [h])
      | isFalse h => isFalse (fun hc => h (by injection hc)))
  | .null, .bool _ | .null, .num _ | .null, .str _ | .null, .arr _ | .null, .obj _
  | .bool _, .null | .bool _, .num _ | .bool _, .str _ | .bool _, .arr _ | .bool _, .obj _
  | .num _, .null | .num _, .bool _ | .num _, .str _ | .num _, .arr _ | .num _, .obj _
  | .str _, .null | .str _, .bool _ | .str _, .num _ | .str _, .arr _ | .str _, .obj _
  | .arr _, .null | .arr _, .bool _ | .arr _, .num _ | .arr _, .str _ | .arr _, .obj _
  | .obj _, .null | .obj _, .bool _ | .obj _, .num _ | .obj _, .str _ | .obj _, .arr _ =>
    isFalse (fun hc => Json.noConfusion hc)

/-- Decidable positionwise equality of JSON value lists. -/
def decEqJsonElems : (xs ys : List Json) → Decidable (xs = ys)
  | [], [] => isTrue rfl
  | [], _ :: _ => isFalse (fun hc => List.noConfusion hc)
  | _ :: _, [] => isFalse (fun hc => List.noConfusion hc)
  | x :: xs, y :: ys =>
    (match decEqJson x y with
      | isFalse h => isFalse (fun hc => h (by injection hc))
      | isTrue h1 =>
        (match decEqJsonElems xs ys with
          | isTrue h2 => isTrue (by rw [h1, h2])
          | isFalse h => isFalse (fun hc => h (by injection hc))))

/-- Decidable positionwise equality of field lists. -/
def decEqJsonPairs : (fs gs : List (String × Json)) → Decidable (fs = gs)
  | [], [] => isTrue rfl
  | [], _ :: _ => isFalse (fun hc => List.noConfusion hc)
  | _ :: _, [] => isFalse (fun hc => List.noConfusion hc)
  | (k, a) :: fs, (l, b) :: gs =>
    if hk : k = l then
      (match decEqJson a b with
        | isFalse h =>
          isFalse (fun hc => by
            injection hc with hp _
            injection hp with _ hv
            exact h hv)
        | isTrue h1 =>
          (match decEqJsonPairs fs gs with
            | isTrue h2 => isTrue (by rw [hk, h1, h2])
            | isFalse h => isFalse (fun hc => h (by injection hc))))
    else
      isFalse (fun hc => by
        injection hc with hp _
        injection hp with hkk _
        exact hk hkk)

end

instance : DecidableEq Json := decEqJson

/-- JavaScript truthiness of a (defined) value: `null`, `false`, `0` and `""`
are falsy; arrays and objects are always truthy. -/
def truthy : Json → Bool
  | .null => false
  | .bool b => b
  | .num n => n != 0
  | .str s => s != ""
  | .arr _ => true
  | .obj _ => true

/-- `typeof v === "object"` — true for objects, arrays and `null`. -/
def typeofObject : Json → Bool
  | .obj _ => true
  | .arr _ => true
  | .null => true
  | _ => false

end Json

/-- Truthiness of a possibly-`undefined` value (`none` = `undefined`). -/
def truthyOpt : Option Json → Bool
  | none => false
  | some v => v.truthy

/-- First-occurrence association lookup; a `JSON.parse`d object has one entry
per key, on which this is exactly JavaScript field lookup. -/
def lookupField : List (String × Json) → String → Option Json
  | [], _ => none
  | (k, v) :: fs, key => if k = key then some v else lookupField fs key

/-- The canonical decimal spelling of a `Nat`, should the string be one:
JavaScript array indices answer `hasOwnProperty`/indexing only for the
canonical spelling (`"0"`, `"1"`, … — no leading zeros, no sign; the 2^32-1
upper bound on indices is not modelled). -/
def digitsVal (cs : List Char) : Nat :=
  cs.foldl (fun n d => 10 * n + (d.toNat - 48)) 0

/-- The decimal digits of `n`, most significant first, written with explicit
fuel so that the kernel can evaluate it. -/
def natSpellingAux : Nat → Nat → List Char
  | 0, _ => []
  | fuel + 1, n =>
    if n < 10 then [Char.ofNat (48 + n)]
    else natSpellingAux fuel (n / 10) ++ [Char.ofNat (48 + n % 10)]

def natSpelling (n : Nat) : List Char := natSpellingAux (n + 1) n

def canonicalIndex? (s : String) : Option Nat :=
  match s.toList with
  | [] => none
  | c :: cs =>
    if (c :: cs).all Char.isDigit ∧ natSpelling (digitsVal (c :: cs)) = c :: cs then
      some (digitsVal (c :: cs))
    else none

/-- JavaScript member access `receiver[key]` for a defined receiver, `none`
meaning `undefined`: object field, array element at a canonical index or array
`length`, string character or string `length`.  Access on `null` throws in
JavaScript; the traversals of the source only reach it behind truthiness
guards, and the model answers `undefined` there. -/
def getField : Json → String → Option Json
  | .obj fs, key => lookupField fs key
  | .arr xs, key =>
    if key = "length" then some (.num xs.length)
    else match canonicalIndex? key with
      | some i => xs[i]?
      | none => none
  | .str s, key =>
    if key = "length" then some (.num s.length)
    else match canonicalIndex? key with
      | some i => (s.toList[i]?).map (fun c => .str (String.mk [c]))
      | none => none
  | _, _ => none

/-- `receiver.hasOwnProperty(key)` for the value kinds the source traverses. -/
def hasField : Json → String → Bool
  | .obj fs, key => (lookupField fs key).isSome
  | .arr xs, key =>
    key = "length" ||
      (match canonicalIndex? key with
        | some i => decide (i < xs.length)
        | none => false)
  | .str s, key =>
    key = "length" ||
      (match canonicalIndex? key with
        | some i => decide (i < s.length)
        | none => false)
  | _, _ => false

/-- Replace the value of the first occurrence of `key`, or append the binding
when the key is absent — JavaScript assignment on an object. -/
def setPairs : List (String × Json) → String → Json → List (String × Json)
  | [], key, v => [(key, v)]
  | (k, w) :: fs, key, v =>
    if k = key then (k, v) :: fs else (k, w) :: setPairs fs key v

/-- JavaScript assignment `receiver[key] = v`, rebuilt functionally.  On
objects it sets or adds the field.  On arrays it overwrites a canonical index
`< length`; a canonical index `≥ length` stores the value there and extends
the array, the skipped slots becoming `null` (JavaScript leaves holes reading
as `undefined`, indistinguishable from `null` to this code's truthiness and
equality tests, and persisted as `null` by `JSON.stringify`).  Assigning
`length` a non-negative number resizes the array, truncating or extending
with such holes; for a negative or non-numeric `length` value JavaScript
throws a `RangeError` before storing anything, modelled as leaving the array
unchanged (the thrown request persists no document).  Storing a named
non-index property on an array is modelled as a no-op: the property lives on
the array object but `JSON.stringify`, through which every document is
persisted, drops it.  Assignment on a primitive is the sloppy-mode silent
no-op. -/
def setField : Json → String → Json → Json
  | .obj fs, key, v => .obj (setPairs fs key v)
  | .arr xs, key, v =>
    if key = "length" then
      (match v with
        | .num n =>
          if 0 ≤ n then
            if n.toNat ≤ xs.length then .arr (xs.take n.toNat)
            else .arr (xs ++ List.replicate (n.toNat - xs.length) .null)
          else .arr xs
        | _ => .arr xs)
    else
      (match canonicalIndex? key with
        | some i =>
          if i < xs.length then .arr (xs.set i v)
          else .arr (xs ++ List.replicate (i - xs.length) .null ++ [v])
        | none => .arr xs)
  | j, _, _ => j

/-- Drop the first occurrence of `key` from a field list. -/
def erasePairs : List (String × Json) → String → List (String × Json)
  | [], _ => []
  | (k, w) :: fs, key => if k = key then fs else (k, w) :: erasePairs fs key

/-- JavaScript `delete receiver[key]`, rebuilt functionally.  Deleting an array
index leaves a hole that `JSON.stringify` renders as `null`, which is how the
model records it; deletion on a primitive is the sloppy-mode no-op. -/
def deleteField : Json → String → Json
  | .obj fs, key => .obj (erasePairs fs key)
  | .arr xs, key =>
    (match canonicalIndex? key with
      | some i => if i < xs.length then .arr (xs.set i .null) else .arr xs
      | none => .arr xs)
  | j, _ => j

/-- Split a path string at `'/'` characters (the source splits with
`path.split("/")`, whose single-character separator this reproduces). -/
def splitSlash : List Char → List Char → List String
  | [], acc => [String.mk acc.reverse]
  | c :: cs, acc =>
    if c = '/' then String.mk acc.reverse :: splitSlash cs [] else splitSlash cs (c :: acc)

/-- `utils.js` `arrayOfPaths` / the `pathParts` prelude of every traversal:
split the request path on `/` and drop empty segments. -/
def arrayOfPaths (path : String) : List String :=
  (splitSlash path.toList []).filter (fun part => part ≠ "")

/-- Whitespace for the purposes of `ToNumber` applied to a string. -/
def isJsSpace (c : Char) : Bool :=
  c = ' ' || c = '\t' || c = '\n' || c = '\r'

/-- Read a run of decimal digits, returning their value, their count and the
rest of the input. -/
def readDigits : List Char → Nat → Nat → Nat × Nat × List Char
  | [], acc, count => (acc, count, [])
  | c :: cs, acc, count =>
    if c.isDigit then readDigits cs (10 * acc + (c.toNat - 48)) (count + 1)
    else (acc, count, c :: cs)

/-- Decide whether JavaScript's `ToNumber` of the string equals the integer
`n`, exactly.  `ToNumber` trims whitespace, maps the empty string to `0`, and
reads an optional sign, integer digits, an optional fraction and an optional
decimal exponent; anything else is `NaN`, which equals nothing.  The model
compares the decimal value exactly as a rational; hexadecimal/binary/octal
literals, `Infinity` and IEEE-754 rounding are not modelled (the specification
exercises only short integer-valued query strings). -/
def numEqStr (n : Int) (s : String) : Bool :=
  let chars := (s.toList.dropWhile isJsSpace).reverse.dropWhile isJsSpace |>.reverse
  match chars with
  | [] => n == 0
  | _ =>
    let (neg, afterSign) :=
      match chars with
      | '-' :: rest => (true, rest)
      | '+' :: rest => (false, rest)
      | rest => (false, rest)
    let (intVal, intCount, afterInt) := readDigits afterSign 0 0
    let (fracVal, fracCount, afterFrac) :=
      match afterInt with
      | '.' :: rest => readDigits rest 0 0
      | rest => (0, 0, rest)
    let (expVal, expOk, afterExp) :=
      match afterFrac with
      | 'e' :: rest | 'E' :: rest =>
        let (expNeg, rest') :=
          match rest with
          | '-' :: r => (true, r)
          | '+' :: r => (false, r)
          | r => (false, r)
        let (e, eCount, after) := readDigits rest' 0 0
        ((if expNeg then -(e : Int) else (e : Int)), decide (0 < eCount), after)
      | rest => ((0 : Int), true, rest)
    if intCount = 0 ∧ fracCount = 0 then false
    else if ¬ expOk ∨ afterExp ≠ [] then false
    else
      let mant : Int := intVal * (10 : Int) ^ fracCount + fracVal
      let mant := if neg then -mant else mant
      let scale : Int := expVal - fracCount
      if 0 ≤ scale then n == mant * (10 : Int) ^ scale.toNat
      else n * (10 : Int) ^ (-scale).toNat == mant

mutual

/-- `String(v)` for an element of an array being joined: `Array.prototype.join`
renders `null` (and `undefined`) as the empty string. -/
def joinElemString : Json → String
  | .null => ""
  | .bool b => if b then "true" else "false"
  | .num n => toString n
  | .str s => s
  | .arr xs => joinAll xs
  | .obj _ => "[object Object]"

/-- `Array.prototype.toString`: the elements' strings joined with `","`. -/
def joinAll : List Json → String
  | [] => ""
  | [x] => joinElemString x
  | x :: y :: xs => joinElemString x ++ "," ++ joinAll (y :: xs)

end

/-- JavaScript loose equality `v == s` between a possibly-`undefined` field
value and a query-parameter string: `undefined` and `null` equal no string; a
number or boolean is compared through `ToNumber` of the string; strings
compare directly; arrays and objects compare through their `ToPrimitive`
string. -/
def looseEqStr : Option Json → String → Bool
  | none, _ => false
  | some .null, _ => false
  | some (.bool b), s => numEqStr (if b then 1 else 0) s
  | some (.num n), s => numEqStr n s
  | some (.str t), s => t == s
  | some (.arr xs), s => joinAll xs == s
  | some (.obj _), s => "[object Object]" == s

/-- JavaScript strict equality `v === s` against a string: only a string field
with the same characters is strictly equal; values of any other type never
are. -/
def strictEqStr : Option Json → String → Bool
  | some (.str t), s => t == s
  | _, _ => false

/-- A query predicate: URL query parameters in order, one string value per
key.  Models the JavaScript query object, whose keys are distinct. -/
abbrev Query := List (String × String)

/-- The filter callback of `findDataByPathAndQuery` (`utils.js` lines
134–141): `for (const key of keys) if (item[key] == queryParameters[key])
return true; return false` — true when ANY predicate key matches loosely. -/
def anyKeyLooseMatch (item : Json) (q : Query) : Bool :=
  q.any (fun kv => looseEqStr (getField item kv.1) kv.2)

/-- The `findIndex` callback of `replaceObjectInNestedArray` (lines 202–209):
`for (let key in queryParams) if (item[key] !== queryParams[key]) return
false; return true` — true when ALL predicate keys match strictly. -/
def allKeysStrictMatch (item : Json) (q : Query) : Bool :=
  q.all (fun kv => strictEqStr (getField item kv.1) kv.2)

/-- The `findIndex` callback of `deleteObjectInNestedArray` (lines 250–257):
`for (let key in queryParams) if (item[key] != queryParams[key]) return
false; return true` — true when ALL predicate keys match loosely. -/
def allKeysLooseMatch (item : Json) (q : Query) : Bool :=
  q.all (fun kv => looseEqStr (getField item kv.1) kv.2)

/-- A thrown JavaScript `TypeError`. -/
inductive JsError where
  | typeError
  deriving DecidableEq, Repr

/-- The loop of `findDataByPath` (`utils.js` lines 34–41): walk the segments,
returning `null` as soon as the current value is falsy or not of object type,
else descending by member access.  The `Option` on both sides carries
`undefined` (`none`); an explicit `return null` is `some .null`, exactly as in
JavaScript, where the two outcomes with value `null` coincide. -/
def walkPath : Option Json → List String → Option Json
  | cur, [] => cur
  | none, _ :: _ => some .null
  | some c, part :: rest =>
    if c.truthy && c.typeofObject then walkPath (getField c part) rest
    else some .null

/-- `utils.js` `findDataByPath`: split the path and walk it from the root. -/
def findDataByPath (data : Json) (path : String) : Option Json :=
  walkPath (some data) (arrayOfPaths path)

/-- `utils.js` `findDataByPathAndQuery` (lines 119–145): resolve the path,
return `null` whenever the resolved value is falsy, and with a non-empty query
filter the value with the ANY-key loose match — `requestData?.filter` throws a
`TypeError` when the truthy resolved value is not an array. -/
def findDataByPathAndQuery (data : Json) (path : String) (q : Query) :
    Except JsError Json :=
  match findDataByPath data path with
  | none => .ok .null
  | some rd =>
    if !rd.truthy then .ok .null
    else if 0 < q.length then
      match rd with
      | .arr xs => .ok (.arr (xs.filter (fun item => anyKeyLooseMatch item q)))
      | _ => .error .typeError
    else .ok rd

/-- The status code chosen by `handleGet` (request handler lines 21–53): 404
with "Not Found" when the result of `findDataByPathAndQuery` is falsy, 200
with the JSON body otherwise; `none` when the filter call threw. -/
def handleGetStatus (dbData : Json) (path : String) (q : Query) : Option Nat :=
  match findDataByPathAndQuery dbData path q with
  | .error _ => none
  | .ok requestData => if !requestData.truthy then some 404 else some 200

/-- The `findTargetArray` helper shared by `replaceObjectInNestedArray` and
`deleteObjectInNestedArray` (`utils.js` lines 163–173 and 231–241): descend
only through truthy object-typed values that own the key, else `null`. -/
def findTargetArray : Json → List String → Option Json
  | o, [] => some o
  | o, key :: rest =>
    if o.truthy && o.typeofObject && hasField o key then
      findTargetArray ((getField o key).getD .null) rest
    else none

/-- Write the mutated target back along the very path `findTargetArray`
followed.  The source mutates the found array in place, so the surrounding
document sees the change through the reference; the functional model rebuilds
the spine instead, which agrees because a parsed document is a tree. -/
def updateTarget : Json → List String → Json → Json
  | _, [], v => v
  | o, key :: rest, v =>
    if o.truthy && o.typeofObject && hasField o key then
      setField o key (updateTarget ((getField o key).getD .null) rest v)
    else o

/-- The empty-predicate branch of `replaceObjectInNestedArray` (lines
176–192): walk all segments but the last, overwriting a falsy child with a
fresh `{}` before descending; at the last segment push onto an existing array,
otherwise assign.  Member access on a `null` receiver throws (`.error`), and
so does the access performed by the NEXT step when a child slot is still
`undefined` after the store was a silent no-op. -/
def assignLast (cur : Json) (last : String) (v : Json) : Except JsError Json :=
  if cur = .null then .error .typeError
  else
    match getField cur last with
    | some (.arr xs) => .ok (setField cur last (.arr (xs ++ [v])))
    | _ => .ok (setField cur last v)

def assignPath : Json → List String → Json → Except JsError Json
  | cur, [], v =>
    -- `arrayKeys[arrayKeys.length - 1]` on an empty list is `undefined`,
    -- which `ToPropertyKey` turns into the literal key "undefined".
    assignLast cur "undefined" v
  | cur, [last], v => assignLast cur last v
  | cur, key :: k2 :: rest, v =>
    if cur = .null then .error .typeError
    else
      let cur1 :=
        if truthyOpt (getField cur key) then cur else setField cur key (.obj [])
      match getField cur1 key with
      | none => .error .typeError
      | some child =>
        (assignPath child (k2 :: rest) v).map (fun child' => setField cur1 key child')

/-- `utils.js` `replaceObjectInNestedArray` (lines 156–220): with an empty
predicate, create-or-assign along the path (appending when the final slot
already holds an array); with a non-empty predicate, find the target array,
replace the first ALL-strict match or append when there is none, and leave the
document unchanged when the target is missing or not an array. -/
def replaceObjectInNestedArray (jsonObject : Json) (arrayKeys : List String)
    (queryParams : Query) (newObject : Json) : Except JsError Json :=
  if queryParams.length = 0 then
    assignPath jsonObject arrayKeys newObject
  else
    match findTargetArray jsonObject arrayKeys with
    | some (.arr xs) =>
      (match xs.findIdx? (fun item => allKeysStrictMatch item queryParams) with
        | some i => .ok (updateTarget jsonObject arrayKeys (.arr (xs.set i newObject)))
        | none => .ok (updateTarget jsonObject arrayKeys (.arr (xs ++ [newObject]))))
    | _ => .ok jsonObject

/-- `utils.js` `deleteObjectInNestedArray` (lines 229–265): find the target
array and splice out the first ALL-loose match; unchanged when the target is
missing, not an array, or nothing matches. -/
def deleteObjectInNestedArray (jsonObject : Json) (arrayKeys : List String)
    (queryParams : Query) : Json :=
  match findTargetArray jsonObject arrayKeys with
  | some (.arr xs) =>
    (match xs.findIdx? (fun item => allKeysLooseMatch item queryParams) with
      | some i => updateTarget jsonObject arrayKeys (.arr (xs.eraseIdx i))
      | none => jsonObject)
  | _ => jsonObject

/-- The loop and final `delete` of `deleteDataByPath` (`utils.js` lines
78–110): descend while the current value owns the next segment (returning the
document unchanged otherwise) and delete the last segment's key where the walk
stopped.  An empty segment list deletes the key `"undefined"`
(`pathParts[pathParts.length - 1]` is `undefined`). -/
def delWalk : Json → List String → Json
  | cur, [] => deleteField cur "undefined"
  | cur, [last] => deleteField cur last
  | cur, part :: p2 :: rest =>
    if hasField cur part then
      setField cur part (delWalk ((getField cur part).getD .null) (p2 :: rest))
    else cur

/-- `utils.js` `deleteDataByPath`. -/
def deleteDataByPath (data : Json) (path : String) : Json :=
  delWalk data (arrayOfPaths path)

/-- `handleDelete` of the final request handler (lines 114–168), as status
code and resulting document: with query parameters, delete through
`deleteObjectInNestedArray` (always 200); without, 404 leaving the document
unchanged when `findDataByPath` answers falsy, else delete by path. -/
def handleDelete (dbData : Json) (path : String) (q : Query) : Nat × Json :=
  if 0 < q.length then
    (200, deleteObjectInNestedArray dbData (arrayOfPaths path) q)
  else
    if truthyOpt (findDataByPath dbData path) then
      (200, deleteDataByPath dbData path)
    else (404, dbData)

/-- `utils.js` `loadJsonData` (lines 13–24), abstracted over the file system
and `JSON.parse`: `readResult` is `none` when `readFileSync` throws and the
file's text otherwise, and `parse s` is `none` when `JSON.parse` throws.  An
empty file, an unreadable file and unparseable content are all caught and
turned into the `null` recovery value the caller receives. -/
def loadJsonData (readResult : Option String) (parse : String → Option Json) :
    Json :=
  match readResult with
  | none => .null
  | some s => if s = "" then .null else (parse s).getD .null

/-- Specification-level member access on the JSON document structure itself:
an object field or an array element — the keys the specification means when it
speaks of the keys of a document (no `length`, no string indexing). -/
def jsonMember : Json → String → Option Json
  | .obj fs, key => lookupField fs key
  | .arr xs, key =>
    (match canonicalIndex? key with
      | some i => xs[i]?
      | none => none)
  | _, _ => none

/-- Specification-level sequential access along a segment list. -/
def getPath : Json → List String → Option Json
  | d, [] => some d
  | d, key :: rest =>
    match jsonMember d key with
    | some c => getPath c rest
    | none => none

/-- Two segment lists diverge when they disagree at some position that both
possess; neither is then a prefix of the other, so the second addresses data
outside the subtree addressed by the first. -/
def Diverges : List String → List String → Prop
  | a :: p, b :: p' => a ≠ b ∨ (a = b ∧ Diverges p p')
  | _, _ => False

def divergesDec : (p p' : List String) → Decidable (Diverges p p')
  | [], [] => isFalse (fun h => h)
  | [], _ :: _ => isFalse (fun h => h)
  | _ :: _, [] => isFalse (fun h => h)
  | a :: p, b :: p' =>
    if hab : a = b then
      match divergesDec p p' with
      | isTrue h => isTrue (Or.inr ⟨hab, h⟩)
      | isFalse h =>
        isFalse (fun hd =>
          match hd with
          | Or.inl hne => hne hab
          | Or.inr ⟨_, hdd⟩ => h hdd)
    else isTrue (Or.inl hab)

instance : ∀ p p', Decidable (Diverges p p') := divergesDec

instance {ε α : Type} [DecidableEq ε] [DecidableEq α] : DecidableEq (Except ε α)
  | .ok a, .ok b =>
    if h : a = b then isTrue (by rw [h]) else isFalse (fun hc => h (by injection hc))
  | .error e, .error f =>
    if h : e = f then isTrue (by rw [h]) else isFalse (fun hc => h (by injection hc))
  | .ok _, .error _ => isFalse (fun hc => Except.noConfusion hc)
  | .error _, .ok _ => isFalse (fun hc => Except.noConfusion hc)

/-- The specification's read-time match: SOME predicate key's value loosely
equals the element's field of that key. -/
def AnyLooseProp (q : Query) (item : Json) : Prop :=
  ∃ kv ∈ q, looseEqStr (getField item kv.1) kv.2 = true

instance (q : Query) (item : Json) : Decidable (AnyLooseProp q item) :=
  List.decidableBEx _ q

/-- The specification's mutation-time match for `upsert`: EVERY predicate
key's value strictly equals the element's field of that key. -/
def AllStrictProp (q : Query) (item : Json) : Prop :=
  ∀ kv ∈ q, strictEqStr (getField item kv.1) kv.2 = true

instance (q : Query) (item : Json) : Decidable (AllStrictProp q item) :=
  List.decidableBAll _ q

/-- The specification's mutation-time match for `remove`: EVERY predicate
key's value loosely equals the element's field of that key. -/
def AllLooseProp (q : Query) (item : Json) : Prop :=
  ∀ kv ∈ q, looseEqStr (getField item kv.1) kv.2 = true

instance (q : Query) (item : Json) : Decidable (AllLooseProp q item) :=
  List.decidableBAll _ q

/-- The inputs on which the create-or-replace walk of `upsert` is
well-behaved: the receiver of every step is a plain object, and any truthy
pre-existing intermediate is itself a plain object (falsy or missing
intermediates are the ones the source overwrites with a fresh `{}`). -/
def GoodUpsert : Json → List String → Prop
  | _, [] => True
  | cur, [_] => ∃ fs, cur = .obj fs
  | cur, key :: rest@(_ :: _) =>
    (∃ fs, cur = .obj fs) ∧
      ∀ c, getField cur key = some c → c.truthy = true →
        (∃ gs, c = .obj gs) ∧ GoodUpsert c rest

theorem anyKeyLooseMatch_iff (item : Json) (q : Query) :
    anyKeyLooseMatch item q = true ↔ AnyLooseProp q item := by
  simp [anyKeyLooseMatch, AnyLooseProp, List.any_eq_true]

theorem allKeysStrictMatch_iff (item : Json) (q : Query) :
    allKeysStrictMatch item q = true ↔ AllStrictProp q item := by
  simp [allKeysStrictMatch, AllStrictProp, List.all_eq_true]

theorem allKeysLooseMatch_iff (item : Json) (q : Query) :
    allKeysLooseMatch item q = true ↔ AllLooseProp q item := by
  simp [allKeysLooseMatch, AllLooseProp, List.all_eq_true]

theorem canonicalIndex?_length : canonicalIndex? "length" = none := by decide

/-- Whatever the specification-level member access finds, the JavaScript
member access finds too, with the same value. -/
theorem getField_of_jsonMember {d : Json} {key : String} {c : Json}
    (h : jsonMember d key = some c) : getField d key = some c := by
  cases d with
  | obj fs => simpa [jsonMember, getField] using h
  | arr xs =>
    by_cases hl : key = "length"
    · subst hl; simp [jsonMember, canonicalIndex?_length] at h
    · simpa [jsonMember, getField, hl] using h
  | null => simp [jsonMember] at h
  | bool b => simp [jsonMember] at h
  | num n => simp [jsonMember] at h
  | str s => simp [jsonMember] at h

/-- A value reached by specification-level member access is an object or an
array, hence truthy and of object type. -/
theorem jsonMember_isSome_elim {d : Json} {key : String} {c : Json}
    (h : jsonMember d key = some c) :
    d.truthy = true ∧ d.typeofObject = true := by
  cases d with
  | obj fs => exact ⟨rfl, rfl⟩
  | arr xs => exact ⟨rfl, rfl⟩
  | null => simp [jsonMember] at h
  | bool b => simp [jsonMember] at h
  | num n => simp [jsonMember] at h
  | str s => simp [jsonMember] at h

/-- Specification-level sequential access factors through the source's walk:
anything `getPath` reaches, `walkPath` reaches too. -/
theorem walkPath_of_getPath :
    ∀ (p : List String) (d w : Json), getPath d p = some w →
      walkPath (some d) p = some w
  | [], d, w => by simp [getPath, walkPath]
  | key :: rest, d, w => by
    intro h
    simp only [getPath] at h
    cases hm : jsonMember d key with
    | none => rw [hm] at h; exact absurd h (by simp)
    | some c =>
      rw [hm] at h
      obtain ⟨ht, ho⟩ := jsonMember_isSome_elim hm
      simp only [walkPath, ht, ho, Bool.and_self, if_true,
        getField_of_jsonMember hm]
      exact walkPath_of_getPath rest c w h

theorem anyKeyLooseMatch_eq_decide (item : Json) (q : Query) :
    anyKeyLooseMatch item q = decide (AnyLooseProp q item) := by
  cases h : anyKeyLooseMatch item q with
  | true => exact (decide_eq_true ((anyKeyLooseMatch_iff item q).mp h)).symm
  | false =>
    refine (decide_eq_false ?_).symm
    intro hp
    rw [(anyKeyLooseMatch_iff item q).mpr hp] at h
    exact Bool.noConfusion h

/-- C3 counterexample: on the document `{a: null}` the key `a` is present with
value `null`, yet `resolve` answers exactly what it answers for the absent key
on `{}`, and `handleGet` turns both into a 404 — present-`null` is not a
distinct success outcome. -/
theorem present_null_counterexample :
    findDataByPathAndQuery (.obj [("a", .null)]) "/a" [] = .ok .null
    ∧ findDataByPathAndQuery (.obj []) "/a" [] = .ok .null
    ∧ handleGetStatus (.obj [("a", .null)]) "/a" [] = some 404
    ∧ handleGetStatus (.obj []) "/a" [] = some 404 := by
  refine ⟨by decide, by decide, by decide, by decide⟩

/-- C3 amended: with an empty predicate, a key present with value `null` and a
key that was never present produce the same outcome — the result value `null`
and a 404 status; absence and present-`null` are NOT distinguished. -/
theorem present_null_same_as_absent :
    ∀ (d : Json) (path : String),
      findDataByPath d path = some .null ∨ findDataByPath d path = none →
      findDataByPathAndQuery d path [] = .ok .null
      ∧ handleGetStatus d path [] = some 404 := by
  intro d path h
  cases h with
  | inl h => constructor <;> simp [findDataByPathAndQuery, handleGetStatus, h, Json.truthy]
  | inr h => constructor <;> simp [findDataByPathAndQuery, handleGetStatus, h, Json.truthy]

theorem present_null_same_as_absent_witness :
    findDataByPathAndQuery (.obj [("a", .null)]) "/a" [] = .ok .null
    ∧ handleGetStatus (.obj [("a", .null)]) "/a" [] = some 404 :=
  present_null_same_as_absent (.obj [("a", .null)]) "/a" (Or.inl (by decide))

/-- C4 counterexample: on `{a: false}` the value reachable by sequential field
access along `/a` is `false` and no intermediate is missing or a non-object,
yet `resolve` with an empty predicate answers `null` instead of that value. -/
theorem resolve_falsy_counterexample :
    getPath (.obj [("a", .bool false)]) (arrayOfPaths "/a") = some (.bool false)
    ∧ findDataByPathAndQuery (.obj [("a", .bool false)]) "/a" [] = .ok .null
    ∧ Json.null ≠ Json.bool false := by
  refine ⟨by decide, by decide, by decide⟩

/-- C4 amended: with an empty predicate, `resolve` returns the value the
source's walk reaches when that value is truthy and `null` otherwise (so a
reachable but falsy value — `null`, `false`, `0`, `""` — is collapsed into the
NotFound answer); in particular any truthy value reachable by
specification-level sequential field access is returned verbatim.  The model
is a pure function, so `d` is never modified. -/
theorem resolve_empty_predicate_amended :
    ∀ (d : Json) (path : String),
      (findDataByPathAndQuery d path [] =
        .ok (match findDataByPath d path with
             | some rd => if rd.truthy then rd else .null
             | none => .null))
      ∧ (∀ w, getPath d (arrayOfPaths path) = some w → w.truthy = true →
          findDataByPathAndQuery d path [] = .ok w) := by
  intro d path
  constructor
  · cases h : findDataByPath d path with
    | none => simp [findDataByPathAndQuery, h]
    | some rd =>
      cases ht : rd.truthy with
      | false => simp [findDataByPathAndQuery, h, ht]
      | true => simp [findDataByPathAndQuery, h, ht]
  · intro w hw htw
    have : findDataByPath d path = some w :=
      walkPath_of_getPath (arrayOfPaths path) d w hw
    simp [findDataByPathAndQuery, this, htw]

theorem resolve_empty_predicate_amended_witness :
    findDataByPathAndQuery (.obj [("b", .num 3)]) "/b" [] =
      .ok (match findDataByPath (.obj [("b", .num 3)]) "/b" with
           | some rd => if rd.truthy then rd else .null
           | none => .null)
    ∧ findDataByPathAndQuery (.obj [("b", .num 3)]) "/b" [] = .ok (.num 3) :=
  ⟨(resolve_empty_predicate_amended (.obj [("b", .num 3)]) "/b").1,
   (resolve_empty_predicate_amended (.obj [("b", .num 3)]) "/b").2
     (.num 3) (by decide) (by decide)⟩

/-- C9: the loader answers its `null` recovery value — the failure the callers
test for — when the file cannot be read, when it is empty, and when its
content does not parse as JSON; and it never substitutes a default document:
any non-`null` answer is exactly the successful parse of the non-empty file
content. -/
theorem loadJsonData_surfaces_failures :
    (∀ parse : String → Option Json, loadJsonData none parse = .null)
    ∧ (∀ parse : String → Option Json, loadJsonData (some "") parse = .null)
    ∧ (∀ (parse : String → Option Json) (s : String), parse s = none →
        loadJsonData (some s) parse = .null)
    ∧ (∀ (parse : String → Option Json) (r : Option String) (v : Json),
        loadJsonData r parse = v → v ≠ .null →
        ∃ s, r = some s ∧ s ≠ "" ∧ parse s = some v) := by
  refine ⟨fun _ => rfl, fun _ => rfl, ?_, ?_⟩
  · intro parse s hp
    by_cases hs : s = ""
    · subst hs; rfl
    · simp [loadJsonData, hs, hp]
  · intro parse r v hv hnull
    cases r with
    | none => exact absurd hv.symm hnull
    | some s =>
      by_cases hs : s = ""
      · subst hs; exact absurd hv.symm hnull
      · refine ⟨s, rfl, hs, ?_⟩
        cases hp : parse s with
        | none => rw [loadJsonData, if_neg hs, hp] at hv; exact absurd hv.symm hnull
        | some j => rw [loadJsonData, if_neg hs, hp] at hv; rw [← hv]; rfl

theorem loadJsonData_surfaces_failures_witness :
    loadJsonData none (fun _ => some (.num 7)) = .null
    ∧ loadJsonData (some "") (fun _ => some (.num 7)) = .null
    ∧ loadJsonData (some "not json") (fun _ => none) = .null
    ∧ ∃ s, (some "7" : Option String) = some s ∧ s ≠ ""
        ∧ (fun _ => some (Json.num 7) : String → Option Json) s = some (.num 7) :=
  ⟨loadJsonData_surfaces_failures.1 _,
   loadJsonData_surfaces_failures.2.1 _,
   loadJsonData_surfaces_failures.2.2.1 _ "not json" rfl,
   loadJsonData_surfaces_failures.2.2.2 _ (some "7") (.num 7) rfl (by decide)⟩

/-- C10: with a non-empty predicate, whenever the resolved value is truthy but
not an array — an object, a non-empty string, a non-zero number or `true` —
`resolve` throws a `TypeError` (`requestData?.filter` is not a function)
rather than producing a value or a NotFound result. -/
theorem truthy_nonarray_filter_throws :
    ∀ (d : Json) (path : String) (q : Query) (rd : Json),
      q ≠ [] →
      findDataByPath d path = some rd →
      rd.truthy = true →
      (∀ xs, rd ≠ .arr xs) →
      findDataByPathAndQuery d path q = .error .typeError := by
  intro d path q rd hq hf ht hna
  have hlen : 0 < q.length := List.length_pos.mpr hq
  cases rd with
  | arr xs => exact absurd rfl (hna xs)
  | null => exact absurd ht (by simp [Json.truthy])
  | bool b => simp [findDataByPathAndQuery, hf, ht, hlen]
  | num n => simp [findDataByPathAndQuery, hf, ht, hlen]
  | str s => simp [findDataByPathAndQuery, hf, ht, hlen]
  | obj fs => simp [findDataByPathAndQuery, hf, ht, hlen]

theorem truthy_nonarray_filter_throws_witness :
    findDataByPathAndQuery (.obj [("a", .obj [("b", .num 1)])]) "/a" [("x", "1")]
      = .error .typeError :=
  truthy_nonarray_filter_throws (.obj [("a", .obj [("b", .num 1)])]) "/a"
    [("x", "1")] (.obj [("b", .num 1)]) (by decide) (by decide) (by decide)
    (fun xs h => Json.noConfusion h)

theorem lookupField_setPairs_self (fs : List (String × Json)) (key : String) (v : Json) :
    lookupField (setPairs fs key v) key = some v := by
  induction fs with
  | nil => simp [setPairs, lookupField]
  | cons f fs ih =>
    obtain ⟨k, w⟩ := f
    by_cases hk : k = key
    · simp [setPairs, lookupField, hk]
    · simp [setPairs, lookupField, hk, ih]

theorem lookupField_setPairs_ne (fs : List (String × Json)) {key key' : String}
    (v : Json) (hne : key' ≠ key) :
    lookupField (setPairs fs key v) key' = lookupField fs key' := by
  induction fs with
  | nil => simp [setPairs, lookupField, Ne.symm hne]
  | cons f fs ih =>
    obtain ⟨k, w⟩ := f
    by_cases hk : k = key
    · subst hk
      simp [setPairs, lookupField, Ne.symm hne]
    · simp only [setPairs, if_neg hk, lookupField, ih]

theorem canonicalIndex?_ne_length {key : String} {i : Nat}
    (h : canonicalIndex? key = some i) : key ≠ "length" := by
  intro hk
  rw [hk, canonicalIndex?_length] at h
  exact Option.noConfusion h

theorem getField_setField_obj (fs : List (String × Json)) (key : String) (v : Json) :
    getField (setField (.obj fs) key v) key = some v := by
  simp [getField, setField, lookupField_setPairs_self]

theorem getField_setField_arr {xs : List Json} {key : String} {i : Nat} (v : Json)
    (hi : canonicalIndex? key = some i) (hlt : i < xs.length) :
    getField (setField (.arr xs) key v) key = some v := by
  have hlen := canonicalIndex?_ne_length hi
  simp [setField, hi, hlt, getField, hlen]

/-- On a path whose target resolves to an array, every intermediate value is
truthy, of object type and owns its key, and `updateTarget` rewrites the
target in place: `findTargetArray` finds exactly the new value afterwards. -/
theorem findTargetArray_updateTarget :
    ∀ (p : List String) (d : Json) (xs : List Json) (v : Json),
      findTargetArray d p = some (.arr xs) →
      findTargetArray (updateTarget d p v) p = some v
  | [], d, xs, v => by
    intro h
    simp [findTargetArray, updateTarget]
  | key :: rest, d, xs, v => by
    intro h
    simp only [findTargetArray] at h
    by_cases hg : (d.truthy && d.typeofObject && hasField d key) = true
    case neg =>
      rw [if_neg hg] at h
      exact Option.noConfusion h
    rw [if_pos hg] at h
    have hg' := hg
    rw [Bool.and_assoc, Bool.and_eq_true, Bool.and_eq_true] at hg'
    obtain ⟨ht, ho, hhf⟩ := hg'
    cases d with
    | null => simp [Json.truthy] at ht
    | bool b => simp [Json.typeofObject] at ho
    | num n => simp [Json.typeofObject] at ho
    | str s => simp [Json.typeofObject] at ho
    | obj fs =>
      cases hl : lookupField fs key with
      | none => exact absurd hhf (by simp [hasField, hl])
      | some c =>
        have hgd : (getField (Json.obj fs) key).getD Json.null = c := by
          simp [getField, hl]
        rw [hgd] at h
        have hrec := findTargetArray_updateTarget rest c xs v h
        have hguard2 :
            ((Json.obj (setPairs fs key (updateTarget c rest v))).truthy &&
              (Json.obj (setPairs fs key (updateTarget c rest v))).typeofObject &&
              hasField (Json.obj (setPairs fs key (updateTarget c rest v))) key) = true := by
          simp [Json.truthy, Json.typeofObject, hasField, lookupField_setPairs_self]
        simp only [updateTarget, if_pos hg, hgd, setField, findTargetArray, if_pos hguard2]
        simpa [getField, lookupField_setPairs_self] using hrec
    | arr ys =>
      by_cases hlen : key = "length"
      · exfalso
        subst hlen
        have hgd : (getField (Json.arr ys) "length").getD Json.null = Json.num ys.length := by
          simp [getField]
        rw [hgd] at h
        cases rest with
        | nil => simp [findTargetArray] at h
        | cons r rs => simp [findTargetArray, Json.truthy, Json.typeofObject] at h
      · have hidx : ∃ i, canonicalIndex? key = some i ∧ i < ys.length := by
          simp only [hasField, hlen, decide_eq_true_eq, Bool.false_or] at hhf
          cases hi : canonicalIndex? key with
          | none => rw [hi] at hhf; exact absurd hhf (by simp)
          | some i =>
            rw [hi] at hhf
            exact ⟨i, rfl, of_decide_eq_true hhf⟩
        obtain ⟨i, hi, hlt⟩ := hidx
        have hgd : (getField (Json.arr ys) key).getD Json.null = ys[i] := by
          simp [getField, hlen, hi, List.getElem?_eq_getElem hlt]
        rw [hgd] at h
        have hrec := findTargetArray_updateTarget rest (ys[i]) xs v h
        have hset : setField (Json.arr ys) key (updateTarget (ys[i]) rest v) =
            .arr (ys.set i (updateTarget (ys[i]) rest v)) := by
          simp [setField, hi, hlt, hlen]
        have hguard2 :
            ((Json.arr (ys.set i (updateTarget (ys[i]) rest v))).truthy &&
              (Json.arr (ys.set i (updateTarget (ys[i]) rest v))).typeofObject &&
              hasField (Json.arr (ys.set i (updateTarget (ys[i]) rest v))) key) = true := by
          simp [Json.truthy, Json.typeofObject, hasField, hi, hlt]
        simp only [updateTarget, if_pos hg, hgd, hset, findTargetArray, if_pos hguard2]
        simpa [getField, hlen, hi, List.getElem?_set_self, hlt] using hrec


theorem allKeysStrictMatch_eq_decide (item : Json) (q : Query) :
    allKeysStrictMatch item q = decide (AllStrictProp q item) := by
  cases h : allKeysStrictMatch item q with
  | true => exact (decide_eq_true ((allKeysStrictMatch_iff item q).mp h)).symm
  | false =>
    refine (decide_eq_false ?_).symm
    intro hp
    rw [(allKeysStrictMatch_iff item q).mpr hp] at h
    exact Bool.noConfusion h

theorem allKeysLooseMatch_eq_decide (item : Json) (q : Query) :
    allKeysLooseMatch item q = decide (AllLooseProp q item) := by
  cases h : allKeysLooseMatch item q with
  | true => exact (decide_eq_true ((allKeysLooseMatch_iff item q).mp h)).symm
  | false =>
    refine (decide_eq_false ?_).symm
    intro hp
    rw [(allKeysLooseMatch_iff item q).mpr hp] at h
    exact Bool.noConfusion h

/-- When at most one element satisfies the predicate, erasing the found one
leaves a list in which nothing is found any more. -/
theorem findIdx?_eraseIdx_none {α : Type} (p : α → Bool) :
    ∀ (xs : List α) (i : Nat), xs.findIdx? p = some i →
      (xs.filter p).length ≤ 1 → (xs.eraseIdx i).findIdx? p = none := by
  intro xs
  induction xs with
  | nil => intro i h; simp at h
  | cons x xs ih =>
    intro i h hcount
    rw [List.findIdx?_cons, Nat.zero_add, List.findIdx?_start_succ] at h
    cases hp : p x with
    | true =>
      rw [if_pos hp] at h
      injection h with h
      subst h
      rw [List.filter_cons_of_pos hp] at hcount
      rw [List.length_cons, Nat.succ_le_succ_iff] at hcount
      have hnil : xs.filter p = [] := List.length_eq_zero.mp (Nat.le_zero.mp hcount)
      rw [List.eraseIdx_cons_zero, List.findIdx?_eq_none_iff]
      intro y hy
      by_contra hpy
      have : y ∈ xs.filter p := List.mem_filter.mpr ⟨hy, by simpa using hpy⟩
      rw [hnil] at this
      exact absurd this (List.not_mem_nil y)
    | false =>
      rw [if_neg (by simp [hp])] at h
      rw [Option.map_eq_some'] at h
      obtain ⟨j, hj, hji⟩ := h
      subst hji
      rw [List.filter_cons_of_neg (by simp [hp])] at hcount
      rw [List.eraseIdx_cons_succ, List.findIdx?_cons, Nat.zero_add,
        List.findIdx?_start_succ, if_neg (by simp [hp])]
      simp [ih j hj hcount]

theorem findIdx?_of_first {α : Type} (p : α → Bool) (xs : List α) (i : Nat)
    (h : i < xs.length) (hp : p (xs.get ⟨i, h⟩) = true)
    (hleast : ∀ j (hj : j < i), p (xs.get ⟨j, Nat.lt_trans hj h⟩) = false) :
    xs.findIdx? p = some i :=
  List.findIdx?_eq_some_iff_getElem.mpr
    ⟨h, by simpa using hp, fun j hj => by simpa using hleast j hj⟩

theorem GoodUpsert_emptyObj : ∀ p : List String, GoodUpsert (.obj []) p := by
  intro p
  cases p with
  | nil => simp [GoodUpsert]
  | cons k rest =>
    cases rest with
    | nil => simp only [GoodUpsert]; exact ⟨[], rfl⟩
    | cons k2 rest2 =>
      simp only [GoodUpsert]
      refine ⟨⟨[], rfl⟩, ?_⟩
      intro c hc _
      simp [getField, lookupField] at hc

theorem walkPath_none_ne_arr :
    ∀ (rest : List String) (xs : List Json),
      walkPath none rest ≠ some (.arr xs) := by
  intro rest xs
  cases rest <;> simp [walkPath]

/-- The heart of the round-trip: on a `GoodUpsert` path and for a truthy new
value, the create-or-replace walk succeeds, and re-walking the path afterwards
finds the new value — appended when an array was already there, stored
directly otherwise. -/
theorem assignPath_roundtrip :
    ∀ (p : List String) (d v : Json), p ≠ [] → v.truthy = true →
      GoodUpsert d p →
      ∃ d', assignPath d p v = .ok d'
        ∧ ((∀ xs, walkPath (some d) p ≠ some (.arr xs)) →
             walkPath (some d') p = some v)
        ∧ (∀ xs, walkPath (some d) p = some (.arr xs) →
             walkPath (some d') p = some (.arr (xs ++ [v])))
  | [], _, _, hne, _, _ => absurd rfl hne
  | [last], d, v, _, hv, hg => by
    simp only [GoodUpsert] at hg
    obtain ⟨fs, rfl⟩ := hg
    have hnn : ¬ (Json.obj fs = Json.null) := fun hc => Json.noConfusion hc
    cases hgf : getField (Json.obj fs) last with
    | some c =>
      cases c with
      | arr xs =>
        refine ⟨setField (.obj fs) last (.arr (xs ++ [v])), ?_, ?_, ?_⟩
        · simp [assignPath, assignLast, hnn, hgf]
        · intro hno
          exact absurd (by simp [walkPath, Json.truthy, Json.typeofObject, hgf]) (hno xs)
        · intro xs' hpre
          have hpre' : getField (Json.obj fs) last = some (.arr xs') := by
            simpa [walkPath, Json.truthy, Json.typeofObject] using hpre
          rw [hgf] at hpre'
          injection hpre' with hpre'
          injection hpre' with hpre'
          subst hpre'
          simp [walkPath, Json.truthy, Json.typeofObject, setField, getField,
            lookupField_setPairs_self]
      | null =>
        refine ⟨setField (.obj fs) last v, ?_, ?_, ?_⟩
        · simp [assignPath, assignLast, hnn, hgf]
        · intro _
          simp [walkPath, Json.truthy, Json.typeofObject, setField, getField,
            lookupField_setPairs_self, hv]
        · intro xs' hpre
          rw [show walkPath (some (Json.obj fs)) [last] = getField (Json.obj fs) last by
            simp [walkPath, Json.truthy, Json.typeofObject], hgf] at hpre
          exact absurd hpre (by simp)
      | bool b =>
        refine ⟨setField (.obj fs) last v, ?_, ?_, ?_⟩
        · simp [assignPath, assignLast, hnn, hgf]
        · intro _
          simp [walkPath, Json.truthy, Json.typeofObject, setField, getField,
            lookupField_setPairs_self, hv]
        · intro xs' hpre
          rw [show walkPath (some (Json.obj fs)) [last] = getField (Json.obj fs) last by
            simp [walkPath, Json.truthy, Json.typeofObject], hgf] at hpre
          exact absurd hpre (by simp)
      | num n =>
        refine ⟨setField (.obj fs) last v, ?_, ?_, ?_⟩
        · simp [assignPath, assignLast, hnn, hgf]
        · intro _
          simp [walkPath, Json.truthy, Json.typeofObject, setField, getField,
            lookupField_setPairs_self, hv]
        · intro xs' hpre
          rw [show walkPath (some (Json.obj fs)) [last] = getField (Json.obj fs) last by
            simp [walkPath, Json.truthy, Json.typeofObject], hgf] at hpre
          exact absurd hpre (by simp)
      | str s =>
        refine ⟨setField (.obj fs) last v, ?_, ?_, ?_⟩
        · simp [assignPath, assignLast, hnn, hgf]
        · intro _
          simp [walkPath, Json.truthy, Json.typeofObject, setField, getField,
            lookupField_setPairs_self, hv]
        · intro xs' hpre
          rw [show walkPath (some (Json.obj fs)) [last] = getField (Json.obj fs) last by
            simp [walkPath, Json.truthy, Json.typeofObject], hgf] at hpre
          exact absurd hpre (by simp)
      | obj gs =>
        refine ⟨setField (.obj fs) last v, ?_, ?_, ?_⟩
        · simp [assignPath, assignLast, hnn, hgf]
        · intro _
          simp [walkPath, Json.truthy, Json.typeofObject, setField, getField,
            lookupField_setPairs_self, hv]
        · intro xs' hpre
          rw [show walkPath (some (Json.obj fs)) [last] = getField (Json.obj fs) last by
            simp [walkPath, Json.truthy, Json.typeofObject], hgf] at hpre
          exact absurd hpre (by simp)
    | none =>
      refine ⟨setField (.obj fs) last v, ?_, ?_, ?_⟩
      · simp [assignPath, assignLast, hnn, hgf]
      · intro _
        simp [walkPath, Json.truthy, Json.typeofObject, setField, getField,
          lookupField_setPairs_self, hv]
      · intro xs' hpre
        rw [show walkPath (some (Json.obj fs)) [last] = getField (Json.obj fs) last by
          simp [walkPath, Json.truthy, Json.typeofObject], hgf] at hpre
        exact absurd hpre (by simp)
  | key :: k2 :: rest, d, v, _, hv, hg => by
    simp only [GoodUpsert] at hg
    obtain ⟨⟨fs, rfl⟩, hchild⟩ := hg
    have hnn : ¬ (Json.obj fs = Json.null) := fun hc => Json.noConfusion hc
    cases ht : truthyOpt (getField (Json.obj fs) key) with
    | true =>
      cases hgf : getField (Json.obj fs) key with
      | none => rw [hgf] at ht; exact absurd ht (by simp [truthyOpt])
      | some c =>
        rw [hgf] at ht
        have htc : c.truthy = true := by simpa [truthyOpt] using ht
        obtain ⟨⟨gs, rfl⟩, hgood⟩ := hchild c hgf htc
        obtain ⟨c', hass, hb1, hb2⟩ :=
          assignPath_roundtrip (k2 :: rest) (.obj gs) v (by simp) hv hgood
        refine ⟨setField (.obj fs) key c', ?_, ?_, ?_⟩
        · simp [assignPath, hnn, hgf, truthyOpt, htc, hass, Except.map]
        · intro hno
          have hno' : ∀ xs, walkPath (some (Json.obj gs)) (k2 :: rest) ≠ some (.arr xs) := by
            intro xs hc
            refine hno xs ?_
            rw [show walkPath (some (Json.obj fs)) (key :: k2 :: rest)
                = walkPath (getField (Json.obj fs) key) (k2 :: rest) by
              simp [walkPath, Json.truthy, Json.typeofObject], hgf]
            exact hc
          have hget : getField (Json.obj (setPairs fs key c')) key = some c' := by
            simp [getField, lookupField_setPairs_self]
          have hstep : walkPath (some (Json.obj (setPairs fs key c'))) (key :: k2 :: rest)
              = walkPath (some c') (k2 :: rest) := by
            simp [walkPath, Json.truthy, Json.typeofObject, hget]
          rw [show setField (Json.obj fs) key c' = Json.obj (setPairs fs key c') from rfl,
            hstep]
          exact hb1 hno'
        · intro xs hpre
          have hpre' : walkPath (some (Json.obj gs)) (k2 :: rest) = some (.arr xs) := by
            rw [show walkPath (some (Json.obj fs)) (key :: k2 :: rest)
                = walkPath (getField (Json.obj fs) key) (k2 :: rest) by
              simp [walkPath, Json.truthy, Json.typeofObject], hgf] at hpre
            exact hpre
          have hget : getField (Json.obj (setPairs fs key c')) key = some c' := by
            simp [getField, lookupField_setPairs_self]
          have hstep : walkPath (some (Json.obj (setPairs fs key c'))) (key :: k2 :: rest)
              = walkPath (some c') (k2 :: rest) := by
            simp [walkPath, Json.truthy, Json.typeofObject, hget]
          rw [show setField (Json.obj fs) key c' = Json.obj (setPairs fs key c') from rfl,
            hstep]
          exact hb2 xs hpre'
    | false =>
      obtain ⟨c', hass, hb1, hb2⟩ :=
        assignPath_roundtrip (k2 :: rest) (.obj []) v (by simp) hv
          (GoodUpsert_emptyObj _)
      have hcur1 : getField (setField (Json.obj fs) key (.obj [])) key
          = some (.obj []) := getField_setField_obj fs key (.obj [])
      refine ⟨setField (setField (Json.obj fs) key (.obj [])) key c', ?_, ?_, ?_⟩
      · simp [assignPath, hnn, ht, hcur1, hass, Except.map]
      · intro _
        have hno' : ∀ xs, walkPath (some (Json.obj [])) (k2 :: rest) ≠ some (.arr xs) := by
          intro xs
          have : getField (Json.obj []) k2 = none := by simp [getField, lookupField]
          simp only [walkPath, Json.truthy, Json.typeofObject, Bool.and_self, if_true, this]
          exact walkPath_none_ne_arr rest xs
        have := hb1 hno'
        have hset2 : getField (setField (setField (Json.obj fs) key (.obj [])) key c') key
            = some c' := by
          cases hsf : setField (Json.obj fs) key (.obj []) with
          | obj fs2 => exact getField_setField_obj fs2 key c'
          | null => exact absurd hsf (by simp [setField])
          | bool b => exact absurd hsf (by simp [setField])
          | num n => exact absurd hsf (by simp [setField])
          | str s => exact absurd hsf (by simp [setField])
          | arr xs => exact absurd hsf (by simp [setField])
        have hobj2 : ∃ fs3, setField (setField (Json.obj fs) key (.obj [])) key c'
            = .obj fs3 := by
          simp [setField]
        obtain ⟨fs3, hfs3⟩ := hobj2
        rw [hfs3] at hset2 ⊢
        simp only [walkPath, Json.truthy, Json.typeofObject, Bool.and_self, if_true, hset2]
        exact this
      · intro xs hpre
        exfalso
        cases hgf : getField (Json.obj fs) key with
        | none =>
          rw [show walkPath (some (Json.obj fs)) (key :: k2 :: rest)
              = walkPath (getField (Json.obj fs) key) (k2 :: rest) by
            simp [walkPath, Json.truthy, Json.typeofObject], hgf] at hpre
          exact walkPath_none_ne_arr (k2 :: rest) xs (by simpa [walkPath] using hpre)
        | some c =>
          rw [hgf] at ht
          have htc : c.truthy = false := by simpa [truthyOpt] using ht
          rw [show walkPath (some (Json.obj fs)) (key :: k2 :: rest)
              = walkPath (getField (Json.obj fs) key) (k2 :: rest) by
            simp [walkPath, Json.truthy, Json.typeofObject], hgf] at hpre
          rw [show walkPath (some c) (k2 :: rest) = some Json.null by
            simp [walkPath, htc]] at hpre
          exact Json.noConfusion (Option.some.inj hpre)

/-- C5 counterexample: upsert `{}` at path `/a` (empty predicate) with the
value `false` stores the value — the pre-existing value was absent, hence not
a sequence — but the follow-up `resolve` answers `null`, not `v`, because the
stored value is falsy. -/
theorem upsert_roundtrip_counterexample :
    arrayOfPaths "/a" = ["a"]
    ∧ replaceObjectInNestedArray (.obj []) ["a"] [] (.bool false)
        = .ok (.obj [("a", .bool false)])
    ∧ findDataByPathAndQuery (.obj [("a", .bool false)]) "/a" [] = .ok .null
    ∧ Json.null ≠ Json.bool false := by
  refine ⟨by decide, by decide, by decide, by decide⟩

/-- C5 amended: for a non-empty path, a TRUTHY value `v`, and a document in
which every step of the walk is a plain object (truthy pre-existing
intermediates are objects — falsy or missing ones are the ones the source
replaces with a fresh `{}`), `upsert` with an empty predicate succeeds, and
`resolve` afterwards returns `v` when the pre-existing value at the path was
not a sequence and the pre-existing sequence with `v` appended when it was.
The counterexample forces both restrictions: a falsy `v` resolves to `null`,
and a truthy non-object intermediate makes the source silently no-op or
throw. -/
theorem upsert_roundtrip_amended :
    ∀ (P : String) (d v : Json),
      arrayOfPaths P ≠ [] →
      v.truthy = true →
      GoodUpsert d (arrayOfPaths P) →
      ∃ d', replaceObjectInNestedArray d (arrayOfPaths P) [] v = .ok d'
        ∧ ((∀ xs, findDataByPath d P ≠ some (.arr xs)) →
             findDataByPathAndQuery d' P [] = .ok v)
        ∧ (∀ xs, findDataByPath d P = some (.arr xs) →
             findDataByPathAndQuery d' P [] = .ok (.arr (xs ++ [v]))) := by
  intro P d v hne hv hg
  obtain ⟨d', hass, hb1, hb2⟩ := assignPath_roundtrip (arrayOfPaths P) d v hne hv hg
  refine ⟨d', ?_, ?_, ?_⟩
  · rw [replaceObjectInNestedArray]
    simp only [List.length_nil, if_true, reduceIte]
    exact hass
  · intro hno
    have hwalk : walkPath (some d') (arrayOfPaths P) = some v :=
      hb1 (fun xs hc => hno xs hc)
    have hfd : findDataByPath d' P = some v := hwalk
    simp [findDataByPathAndQuery, hfd, hv]
  · intro xs hpre
    have hwalk : walkPath (some d') (arrayOfPaths P) = some (.arr (xs ++ [v])) :=
      hb2 xs hpre
    have hfd : findDataByPath d' P = some (.arr (xs ++ [v])) := hwalk
    simp [findDataByPathAndQuery, hfd, Json.truthy]

theorem upsert_roundtrip_amended_witness :
    ∃ d', replaceObjectInNestedArray (.obj [("keep", .num 3)])
        (arrayOfPaths "/a/b") [] (.num 7) = .ok d'
      ∧ ((∀ xs, findDataByPath (.obj [("keep", .num 3)]) "/a/b" ≠ some (.arr xs)) →
           findDataByPathAndQuery d' "/a/b" [] = .ok (.num 7))
      ∧ (∀ xs, findDataByPath (.obj [("keep", .num 3)]) "/a/b" = some (.arr xs) →
           findDataByPathAndQuery d' "/a/b" [] = .ok (.arr (xs ++ [.num 7]))) :=
  upsert_roundtrip_amended "/a/b" (.obj [("keep", .num 3)]) (.num 7)
    (by decide) (by decide)
    (by
      have hp : arrayOfPaths "/a/b" = ["a", "b"] := by decide
      rw [hp]
      simp only [GoodUpsert]
      refine ⟨⟨[("keep", .num 3)], rfl⟩, ?_⟩
      intro c hc
      simp [getField, lookupField] at hc)

theorem canonicalIndex?_spelling {s : String} {i : Nat}
    (h : canonicalIndex? s = some i) : s.toList = natSpelling i := by
  unfold canonicalIndex? at h
  split at h
  · exact Option.noConfusion h
  · rename_i c cs heq
    split at h
    · rename_i hc
      injection h with h
      rw [heq, ← h]
      exact hc.2.symm
    · exact Option.noConfusion h

theorem toList_inj {s t : String} (h : s.toList = t.toList) : s = t := by
  cases s with
  | mk ds =>
    cases t with
    | mk dt =>
      simp only [String.toList] at h
      exact congrArg String.mk h

theorem canonicalIndex?_inj {k k' : String} {i : Nat}
    (h : canonicalIndex? k = some i) (h' : canonicalIndex? k' = some i) : k = k' :=
  toList_inj ((canonicalIndex?_spelling h).trans (canonicalIndex?_spelling h').symm)

/-- Writing a key the receiver already owns as a document member leaves every
OTHER member exactly as it was: the write lands at an existing object field or
an index below the length, so no padding and no resize can happen. -/
theorem jsonMember_setField_ne (o : Json) {k k' : String} (v : Json)
    (hne : k' ≠ k)
    (hkl : ∀ ys, o = .arr ys → k ≠ "length")
    (hin : ∀ ys i, o = .arr ys → canonicalIndex? k = some i → i < ys.length) :
    jsonMember (setField o k v) k' = jsonMember o k' := by
  cases o with
  | obj fs => simp [jsonMember, setField, lookupField_setPairs_ne fs v hne]
  | arr xs =>
    have hkl' : k ≠ "length" := hkl xs rfl
    cases hi : canonicalIndex? k with
    | none =>
      have hset : setField (Json.arr xs) k v = Json.arr xs := by
        simp [setField, hi, hkl']
      rw [hset]
    | some i =>
      have hlt : i < xs.length := hin xs i rfl hi
      have hset : setField (Json.arr xs) k v = Json.arr (xs.set i v) := by
        simp [setField, hi, hlt, hkl']
      rw [hset]
      simp only [jsonMember]
      cases hj : canonicalIndex? k' with
      | none => rfl
      | some j =>
        have hij : i ≠ j := fun hij =>
          hne (canonicalIndex?_inj hj (by rw [← hij] at hj ⊢; exact hi))
        simp [List.getElem?_set_ne hij]
  | null => rfl
  | bool b => rfl
  | num n => rfl
  | str s => rfl

/-- Writing any key other than an array's `length` never DESTROYS a sibling
member: a past-the-end index write pads the skipped slots with fresh `null`s,
which creates members but leaves every pre-existing one with its value. -/
theorem jsonMember_setField_preserve {o : Json} {k k' : String} {c : Json}
    (v : Json) (hne : k' ≠ k) (hkl : k ≠ "length")
    (hm : jsonMember o k' = some c) :
    jsonMember (setField o k v) k' = some c := by
  cases o with
  | obj fs =>
    rw [show setField (Json.obj fs) k v = Json.obj (setPairs fs k v) from rfl]
    simp only [jsonMember] at hm ⊢
    rw [lookupField_setPairs_ne fs v hne]
    exact hm
  | arr xs =>
    simp only [jsonMember] at hm
    cases hj : canonicalIndex? k' with
    | none => rw [hj] at hm; exact Option.noConfusion hm
    | some j =>
      rw [hj] at hm
      have hm' : xs[j]? = some c := hm
      have hjlt : j < xs.length := by
        by_contra hge
        rw [List.getElem?_eq_none (Nat.le_of_not_lt hge)] at hm'
        exact Option.noConfusion hm'
      cases hi : canonicalIndex? k with
      | none =>
        have hset : setField (Json.arr xs) k v = Json.arr xs := by
          simp [setField, hi, hkl]
        rw [hset]
        simp only [jsonMember, hj]
        exact hm'
      | some i =>
        have hij : i ≠ j := fun hij =>
          hne (canonicalIndex?_inj hj (by rw [← hij] at hj ⊢; exact hi))
        by_cases hlt : i < xs.length
        · have hset : setField (Json.arr xs) k v = Json.arr (xs.set i v) := by
            simp [setField, hi, hlt, hkl]
          rw [hset]
          simp only [jsonMember, hj]
          rw [List.getElem?_set_ne hij]
          exact hm'
        · have hset : setField (Json.arr xs) k v
              = Json.arr (xs ++ List.replicate (i - xs.length) .null ++ [v]) := by
            simp [setField, hi, hlt, hkl]
          rw [hset]
          simp only [jsonMember, hj]
          have hj1 : j < (xs ++ List.replicate (i - xs.length) Json.null).length := by
            rw [List.length_append]
            exact Nat.lt_of_lt_of_le hjlt (Nat.le_add_right _ _)
          rw [List.getElem?_append_left hj1, List.getElem?_append_left hjlt]
          exact hm'
  | null => exact Option.noConfusion hm
  | bool b => exact Option.noConfusion hm
  | num n => exact Option.noConfusion hm
  | str s => exact Option.noConfusion hm

theorem jsonMember_setField_self {d : Json} {k : String} {c0 : Json} (X : Json)
    (hm : jsonMember d k = some c0) :
    jsonMember (setField d k X) k = some X := by
  cases d with
  | obj fs => simp [jsonMember, setField, lookupField_setPairs_self]
  | arr xs =>
    simp only [jsonMember] at hm
    cases hi : canonicalIndex? k with
    | none => rw [hi] at hm; exact Option.noConfusion hm
    | some i =>
      rw [hi] at hm
      have hm' : xs[i]? = some c0 := hm
      have hlt : i < xs.length := by
        by_contra hge
        rw [List.getElem?_eq_none (Nat.le_of_not_lt hge)] at hm'
        exact Option.noConfusion hm'
      have hkl := canonicalIndex?_ne_length hi
      simp [setField, hi, hlt, hkl, jsonMember]
  | null => exact Option.noConfusion hm
  | bool b => exact Option.noConfusion hm
  | num n => exact Option.noConfusion hm
  | str s => exact Option.noConfusion hm

/-- An array key that resolves to a document member is never `length`. -/
theorem jsonMember_some_not_length {d : Json} {k : String} {c : Json}
    (hm : jsonMember d k = some c) : ∀ ys, d = .arr ys → k ≠ "length" := by
  intro ys hd hk
  subst hd
  subst hk
  simp [jsonMember, canonicalIndex?_length] at hm

/-- An array key that resolves to a document member is a canonical index below
the length. -/
theorem jsonMember_some_index_lt {d : Json} {k : String} {c : Json}
    (hm : jsonMember d k = some c) :
    ∀ ys i, d = .arr ys → canonicalIndex? k = some i → i < ys.length := by
  intro ys i hd hi
  subst hd
  simp only [jsonMember, hi] at hm
  have hm' : ys[i]? = some c := hm
  by_contra hge
  rw [List.getElem?_eq_none (Nat.le_of_not_lt hge)] at hm'
  exact Option.noConfusion hm'

theorem hasField_of_jsonMember {d : Json} {k : String} {c : Json}
    (hm : jsonMember d k = some c) : hasField d k = true := by
  cases d with
  | obj fs => simp only [jsonMember] at hm; simp [hasField, hm]
  | arr xs =>
    simp only [jsonMember] at hm
    cases hi : canonicalIndex? k with
    | none => rw [hi] at hm; exact Option.noConfusion hm
    | some i =>
      rw [hi] at hm
      have hm' : xs[i]? = some c := hm
      have hlt : i < xs.length := by
        by_contra hge
        rw [List.getElem?_eq_none (Nat.le_of_not_lt hge)] at hm'
        exact Option.noConfusion hm'
      simp [hasField, hi, hlt]
  | null => exact Option.noConfusion hm
  | bool b => exact Option.noConfusion hm
  | num n => exact Option.noConfusion hm
  | str s => exact Option.noConfusion hm

/-- A falsy value is a scalar, and scalars have no document members. -/
theorem jsonMember_of_falsy {c : Json} (h : c.truthy = false) (k : String) :
    jsonMember c k = none := by
  cases c with
  | null => rfl
  | bool b => rfl
  | num n => rfl
  | str s => rfl
  | arr xs => exact absurd h (by simp [Json.truthy])
  | obj fs => exact absurd h (by simp [Json.truthy])

theorem lookupField_erasePairs_ne (fs : List (String × Json)) {k k' : String}
    (hne : k' ≠ k) :
    lookupField (erasePairs fs k) k' = lookupField fs k' := by
  induction fs with
  | nil => rfl
  | cons f fs ih =>
    obtain ⟨k0, w⟩ := f
    by_cases h0 : k0 = k
    · subst h0
      simp [erasePairs, lookupField, Ne.symm hne]
    · by_cases h0' : k0 = k'
      · subst h0'
        simp [erasePairs, lookupField, h0]
      · simp [erasePairs, lookupField, h0, h0', ih]

theorem lookupField_eq_none_of_not_mem {fs : List (String × Json)} {k : String}
    (h : k ∉ fs.map Prod.fst) : lookupField fs k = none := by
  induction fs with
  | nil => rfl
  | cons f fs ih =>
    obtain ⟨k0, w⟩ := f
    simp only [List.map_cons, List.mem_cons] at h
    push_neg at h
    obtain ⟨h1, h2⟩ := h
    have hk0 : k0 ≠ k := fun hc => h1 hc.symm
    simp [lookupField, hk0, ih h2]

theorem lookupField_erasePairs_self {fs : List (String × Json)} {k : String}
    (hnd : (fs.map Prod.fst).Nodup) :
    lookupField (erasePairs fs k) k = none := by
  induction fs with
  | nil => rfl
  | cons f fs ih =>
    obtain ⟨k0, w⟩ := f
    simp only [List.map_cons, List.nodup_cons] at hnd
    by_cases h0 : k0 = k
    · subst h0
      simp only [erasePairs, if_pos rfl]
      exact lookupField_eq_none_of_not_mem hnd.1
    · simp [erasePairs, lookupField, h0, ih hnd.2]

theorem deleteField_jsonMember_ne (o : Json) {k k' : String} (hne : k' ≠ k) :
    jsonMember (deleteField o k) k' = jsonMember o k' := by
  cases o with
  | obj fs => simp [jsonMember, deleteField, lookupField_erasePairs_ne fs hne]
  | arr xs =>
    cases hi : canonicalIndex? k with
    | none =>
      have hdel : deleteField (Json.arr xs) k = Json.arr xs := by simp [deleteField, hi]
      rw [hdel]
    | some i =>
      by_cases hlt : i < xs.length
      · have hdel : deleteField (Json.arr xs) k = Json.arr (xs.set i .null) := by
          simp [deleteField, hi, hlt]
        rw [hdel]
        simp only [jsonMember]
        cases hj : canonicalIndex? k' with
        | none => rfl
        | some j =>
          have hij : i ≠ j := fun hij =>
            hne (canonicalIndex?_inj hj (by rw [← hij] at hj ⊢; exact hi))
          simp [List.getElem?_set_ne hij]
      · have hdel : deleteField (Json.arr xs) k = Json.arr xs := by
          simp [deleteField, hi, hlt]
        rw [hdel]
  | null => rfl
  | bool b => rfl
  | num n => rfl
  | str s => rfl

/-- When the parent of the deleted key exists, `deleteDataByPath`'s walk
reaches it, applies the JavaScript `delete` there, and touches nothing that
diverges from the full path. -/
theorem delWalk_getPath :
    ∀ (pref : List String) (d : Json) (last : String) (parent : Json),
      getPath d pref = some parent →
      getPath (delWalk d (pref ++ [last])) pref = some (deleteField parent last)
      ∧ (∀ p', Diverges (pref ++ [last]) p' →
          getPath (delWalk d (pref ++ [last])) p' = getPath d p')
  | [], d, last, parent => by
    intro h
    simp only [getPath] at h
    injection h with h
    subst h
    constructor
    · simp [delWalk, getPath]
    · intro p' hd
      cases p' with
      | nil => exact (hd : False).elim
      | cons k' rest' =>
        have hne : k' ≠ last := by
          cases hd with
          | inl h => exact Ne.symm h
          | inr h => exact (h.2 : False).elim
        show getPath (delWalk d ([] ++ [last])) (k' :: rest') = _
        simp only [List.nil_append, delWalk, getPath]
        rw [deleteField_jsonMember_ne d hne]
  | key :: pref, d, last, parent => by
    intro h
    simp only [getPath] at h
    cases hm : jsonMember d key with
    | none => rw [hm] at h; exact Option.noConfusion h
    | some c =>
      rw [hm] at h
      have h' : getPath c pref = some parent := h
      have hhf : hasField d key = true := hasField_of_jsonMember hm
      have hgf : getField d key = some c := getField_of_jsonMember hm
      obtain ⟨ih1, ih2⟩ := delWalk_getPath pref c last parent h'
      have hstep : delWalk d ((key :: pref) ++ [last])
          = setField d key (delWalk c (pref ++ [last])) := by
        cases pref with
        | nil => simp [delWalk, hhf, hgf]
        | cons p2 ps => simp [delWalk, hhf, hgf]
      rw [hstep]
      constructor
      · simp only [getPath]
        rw [jsonMember_setField_self _ hm]
        exact ih1
      · intro p' hd
        cases p' with
        | nil => exact (hd : False).elim
        | cons k' rest' =>
          cases hd with
          | inl hne =>
            simp only [getPath]
            rw [jsonMember_setField_ne d _ (Ne.symm hne)
              (jsonMember_some_not_length hm) (jsonMember_some_index_lt hm)]
          | inr hh =>
            obtain ⟨heq, hdd⟩ := hh
            subst heq
            simp only [getPath]
            rw [jsonMember_setField_self _ hm, hm]
            exact ih2 rest' hdd

/-- C7 counterexample: on `{a: 0}` the key `a` IS present, yet `remove` with
an empty predicate answers 404 and leaves the document unchanged, because the
existence check is `findDataByPath` followed by a falsiness test and `0` is
falsy — the claim's "if it does exist, it deletes exactly that key" fails. -/
theorem delete_existing_falsy_counterexample :
    jsonMember (.obj [("a", .num 0)]) "a" = some (.num 0)
    ∧ handleDelete (.obj [("a", .num 0)]) "/a" [] = (404, .obj [("a", .num 0)]) := by
  refine ⟨by decide, by decide⟩

/-- C7 amended: `remove` with an empty predicate requires the path to resolve
to a TRUTHY value: when `findDataByPath` answers a falsy value — whether the
key is absent or present with a falsy value such as `0` or `null` — the
handler signals 404 and leaves the document unchanged; when the resolved
value is truthy it answers 200 and applies `deleteDataByPath`, whose walk
deletes exactly the last segment's key at the parent (siblings and every
diverging path untouched); on an object parent with distinct keys the deleted
key is gone and every other key keeps its value. -/
theorem remove_empty_predicate_amended :
    (∀ (d : Json) (P : String),
        truthyOpt (findDataByPath d P) = false → handleDelete d P [] = (404, d))
    ∧ (∀ (d : Json) (P : String),
        truthyOpt (findDataByPath d P) = true →
        handleDelete d P [] = (200, deleteDataByPath d P))
    ∧ (∀ (d parent : Json) (pref : List String) (last : String),
        getPath d pref = some parent →
        getPath (delWalk d (pref ++ [last])) pref = some (deleteField parent last)
        ∧ ∀ p', Diverges (pref ++ [last]) p' →
            getPath (delWalk d (pref ++ [last])) p' = getPath d p')
    ∧ (∀ (fs : List (String × Json)) (last : String),
        (fs.map Prod.fst).Nodup →
        jsonMember (deleteField (.obj fs) last) last = none
        ∧ ∀ k, k ≠ last →
            jsonMember (deleteField (.obj fs) last) k = jsonMember (.obj fs) k) := by
  refine ⟨?_, ?_, ?_, ?_⟩
  · intro d P hfalsy
    simp [handleDelete, hfalsy]
  · intro d P htruthy
    simp [handleDelete, htruthy]
  · intro d parent pref last h
    exact delWalk_getPath pref d last parent h
  · intro fs last hnd
    constructor
    · simp only [deleteField, jsonMember]
      exact lookupField_erasePairs_self hnd
    · intro k hk
      simp only [deleteField, jsonMember]
      exact lookupField_erasePairs_ne fs hk

theorem remove_empty_predicate_amended_witness :
    handleDelete (.obj [("gone", .num 0)]) "/gone" [] = (404, .obj [("gone", .num 0)])
    ∧ handleDelete (.obj [("a", .num 1), ("b", .num 2)]) "/a" []
        = (200, deleteDataByPath (.obj [("a", .num 1), ("b", .num 2)]) "/a")
    ∧ (getPath (delWalk (.obj [("a", .num 1), ("b", .num 2)]) ([] ++ ["a"])) []
        = some (deleteField (.obj [("a", .num 1), ("b", .num 2)]) "a")
      ∧ ∀ p', Diverges ([] ++ ["a"]) p' →
          getPath (delWalk (.obj [("a", .num 1), ("b", .num 2)]) ([] ++ ["a"])) p'
            = getPath (.obj [("a", .num 1), ("b", .num 2)]) p')
    ∧ (jsonMember (deleteField (.obj [("a", .num 1), ("b", .num 2)]) "a") "a" = none
      ∧ ∀ k, k ≠ "a" →
          jsonMember (deleteField (.obj [("a", .num 1), ("b", .num 2)]) "a") k
            = jsonMember (.obj [("a", .num 1), ("b", .num 2)]) k) :=
  ⟨remove_empty_predicate_amended.1 (.obj [("gone", .num 0)]) "/gone" (by decide),
   remove_empty_predicate_amended.2.1 (.obj [("a", .num 1), ("b", .num 2)]) "/a" (by decide),
   remove_empty_predicate_amended.2.2.1 (.obj [("a", .num 1), ("b", .num 2)])
     (.obj [("a", .num 1), ("b", .num 2)]) [] "a" (by decide),
   remove_empty_predicate_amended.2.2.2 [("a", .num 1), ("b", .num 2)] "a" (by decide)⟩

/-- Rewriting the predicate-addressed target changes nothing on any path that
diverges from the target path.  The hypothesis records the call-site
guarantee: the path is one that `findTargetArray` successfully followed to an
array, so every step of the write-back lands at an existing document member
and no padding or resizing can occur. -/
theorem updateTarget_getPath_diverge :
    ∀ (p p' : List String) (d v : Json),
      (∃ xs, findTargetArray d p = some (.arr xs)) → Diverges p p' →
      getPath (updateTarget d p v) p' = getPath d p'
  | [], p', d, v => by
    intro _ hd
    cases p' <;> exact (hd : False).elim
  | k :: rest, p', d, v => by
    intro hex hd
    obtain ⟨xs, hfta⟩ := hex
    cases p' with
    | nil => exact (hd : False).elim
    | cons k' rest' =>
      simp only [findTargetArray] at hfta
      by_cases hg : (d.truthy && d.typeofObject && hasField d k) = true
      case neg => rw [if_neg hg] at hfta; exact Option.noConfusion hfta
      rw [if_pos hg] at hfta
      have hg' := hg
      rw [Bool.and_assoc, Bool.and_eq_true, Bool.and_eq_true] at hg'
      obtain ⟨ht, hto, hhf⟩ := hg'
      have hstep : ∃ c, jsonMember d k = some c
          ∧ (getField d k).getD .null = c := by
        cases d with
        | null => exact absurd ht (by simp [Json.truthy])
        | bool b => exact absurd hto (by simp [Json.typeofObject])
        | num n => exact absurd hto (by simp [Json.typeofObject])
        | str s => exact absurd hto (by simp [Json.typeofObject])
        | obj fs =>
          cases hl : lookupField fs k with
          | none => exact absurd hhf (by simp [hasField, hl])
          | some c => exact ⟨c, hl, by simp [getField, hl]⟩
        | arr ys =>
          by_cases hlen : k = "length"
          · exfalso
            subst hlen
            have hgd : (getField (Json.arr ys) "length").getD Json.null
                = Json.num ys.length := by simp [getField]
            rw [hgd] at hfta
            cases rest with
            | nil => simp [findTargetArray] at hfta
            | cons r rs =>
              simp [findTargetArray, Json.truthy, Json.typeofObject] at hfta
          · have hidx : ∃ i, canonicalIndex? k = some i ∧ i < ys.length := by
              simp only [hasField, hlen, decide_eq_true_eq, Bool.false_or] at hhf
              cases hi : canonicalIndex? k with
              | none => rw [hi] at hhf; exact absurd hhf (by simp)
              | some i =>
                rw [hi] at hhf
                exact ⟨i, rfl, of_decide_eq_true hhf⟩
            obtain ⟨i, hi, hlt⟩ := hidx
            refine ⟨ys[i], ?_, ?_⟩
            · simp [jsonMember, hi, List.getElem?_eq_getElem hlt]
            · simp [getField, hlen, hi, List.getElem?_eq_getElem hlt]
      obtain ⟨c, hm, hgd⟩ := hstep
      rw [hgd] at hfta
      have hup : updateTarget d (k :: rest) v
          = setField d k (updateTarget c rest v) := by
        simp only [updateTarget, if_pos hg, hgd]
      rw [hup]
      cases hd with
      | inl hne =>
        simp only [getPath]
        rw [jsonMember_setField_ne d _ (Ne.symm hne)
          (jsonMember_some_not_length hm) (jsonMember_some_index_lt hm)]
      | inr hh =>
        obtain ⟨heq, hdd⟩ := hh
        subst heq
        simp only [getPath]
        rw [jsonMember_setField_self _ hm, hm]
        exact updateTarget_getPath_diverge rest rest' c v ⟨xs, hfta⟩ hdd

theorem assignLast_elim {d v d' : Json} {last : String}
    (h : assignLast d last v = .ok d') :
    d ≠ .null ∧ ∃ X, d' = setField d last X := by
  by_cases hdnull : d = .null
  · rw [assignLast, if_pos hdnull] at h
    exact Except.noConfusion h
  · refine ⟨hdnull, ?_⟩
    rw [assignLast, if_neg hdnull] at h
    cases hgf : getField d last with
    | none =>
      rw [hgf] at h
      injection h with h
      exact ⟨v, h.symm⟩
    | some c =>
      rw [hgf] at h
      cases c with
      | arr xs => injection h with h; exact ⟨_, h.symm⟩
      | null => injection h with h; exact ⟨v, h.symm⟩
      | bool b => injection h with h; exact ⟨v, h.symm⟩
      | num n => injection h with h; exact ⟨v, h.symm⟩
      | str s => injection h with h; exact ⟨v, h.symm⟩
      | obj fs => injection h with h; exact ⟨v, h.symm⟩

theorem assignPath_cons_elim {d v d' : Json} {key k2 : String} {rest : List String}
    (h : assignPath d (key :: k2 :: rest) v = .ok d') :
    d ≠ .null ∧
    ∃ child child',
      getField (if truthyOpt (getField d key) then d
                else setField d key (.obj [])) key = some child ∧
      assignPath child (k2 :: rest) v = .ok child' ∧
      d' = setField (if truthyOpt (getField d key) then d
                     else setField d key (.obj [])) key child' := by
  by_cases hdnull : d = .null
  · simp [assignPath, hdnull] at h
  · refine ⟨hdnull, ?_⟩
    simp only [assignPath, if_neg hdnull] at h
    cases hgc : getField (if truthyOpt (getField d key) then d
        else setField d key (.obj [])) key with
    | none => rw [hgc] at h; exact Except.noConfusion h
    | some child =>
      rw [hgc] at h
      have h2 : (assignPath child (k2 :: rest) v).map
          (fun c' => setField (if truthyOpt (getField d key) then d
            else setField d key (.obj [])) key c') = .ok d' := h
      cases hac : assignPath child (k2 :: rest) v with
      | error e => rw [hac] at h2; exact Except.noConfusion h2
      | ok child' =>
        rw [hac] at h2
        injection h2 with h2
        exact ⟨child, child', rfl, hac, h2.symm⟩

/-- The create-or-replace walk of `upsert` writes only along its own path,
and the only side effect it can have elsewhere is the fresh `null` padding of
a past-the-end index write — which creates members but never changes an
existing one.  So, provided no written segment is an array's `length` (whose
assignment resizes the array and can genuinely discard data), every value
present at a diverging path before the walk is still there, unchanged,
afterwards. -/
theorem assignPath_getPath_preserve :
    ∀ (p : List String) (d v d' : Json), "length" ∉ p →
      assignPath d p v = .ok d' →
      ∀ p' w, Diverges p p' → getPath d p' = some w → getPath d' p' = some w
  | [], d, v, d' => by
    intro _ _ p' w hd _
    cases p' <;> exact (hd : False).elim
  | [last], d, v, d' => by
    intro hl h p' w hd hw
    have hlast : last ≠ "length" := by
      intro hc
      exact hl (by rw [hc]; exact List.mem_cons_self _ _)
    cases p' with
    | nil => exact (hd : False).elim
    | cons k' rest' =>
      have hne : k' ≠ last := by
        cases hd with
        | inl h1 => exact Ne.symm h1
        | inr h1 => exact (h1.2 : False).elim
      have h' : assignLast d last v = .ok d' := h
      obtain ⟨hdnull, X, hX⟩ := assignLast_elim h'
      simp only [getPath] at hw
      cases hmk : jsonMember d k' with
      | none => rw [hmk] at hw; exact Option.noConfusion hw
      | some c =>
        rw [hmk] at hw
        have hw' : getPath c rest' = some w := hw
        rw [hX]
        simp only [getPath]
        rw [jsonMember_setField_preserve X hne hlast hmk]
        exact hw'
  | key :: k2 :: rest, d, v, d' => by
    intro hl h p' w hd hw
    have hkey : key ≠ "length" := by
      intro hc
      exact hl (by rw [hc]; exact List.mem_cons_self _ _)
    have hl2 : "length" ∉ k2 :: rest := fun hc => hl (List.mem_cons_of_mem _ hc)
    obtain ⟨hdnull, child, child', hgc, hac, hd'⟩ := assignPath_cons_elim h
    cases p' with
    | nil => exact (hd : False).elim
    | cons k' rest' =>
      simp only [getPath] at hw
      cases hmk : jsonMember d k' with
      | none => rw [hmk] at hw; exact Option.noConfusion hw
      | some c0 =>
        rw [hmk] at hw
        have hw' : getPath c0 rest' = some w := hw
        cases hd with
        | inl hne =>
          have hcur1 : jsonMember (if truthyOpt (getField d key) then d
              else setField d key (.obj [])) k' = some c0 := by
            by_cases ht : truthyOpt (getField d key) = true
            · rw [if_pos ht]; exact hmk
            · rw [if_neg ht]
              exact jsonMember_setField_preserve (.obj []) (Ne.symm hne) hkey hmk
          rw [hd']
          simp only [getPath]
          rw [jsonMember_setField_preserve child' (Ne.symm hne) hkey hcur1]
          exact hw'
        | inr hh =>
          obtain ⟨heq, hdd⟩ := hh
          subst heq
          have hgf : getField d key = some c0 := getField_of_jsonMember hmk
          by_cases ht : truthyOpt (getField d key) = true
          · rw [if_pos ht] at hgc hd'
            have hchild : child = c0 := by
              rw [hgf] at hgc
              injection hgc with hh2
              exact hh2.symm
            rw [hchild] at hac
            rw [hd']
            simp only [getPath]
            rw [jsonMember_setField_self child' hmk]
            exact assignPath_getPath_preserve (k2 :: rest) c0 v child' hl2 hac
              rest' w hdd hw'
          · exfalso
            rw [hgf] at ht
            have hcf : c0.truthy = false := by
              simpa [truthyOpt] using Bool.of_not_eq_true ht
            cases rest' with
            | nil => exact (hdd : False).elim
            | cons r1 rs =>
              have hnone : jsonMember c0 r1 = none := jsonMember_of_falsy hcf r1
              simp only [getPath, hnone] at hw'
              exact Option.noConfusion hw'

theorem mem_set_of_ne {α : Type} :
    ∀ (xs : List α) (i : Nat) (w e : α), e ∈ xs →
      (∀ h : i < xs.length, e ≠ xs.get ⟨i, h⟩) → e ∈ xs.set i w
  | [], _, _, _, hmem, _ => absurd hmem (List.not_mem_nil _)
  | x :: xs, 0, w, e, hmem, hne => by
    cases hmem with
    | head => exact absurd rfl (hne (by simp))
    | tail _ hm => exact List.mem_cons_of_mem _ hm
  | x :: xs, i + 1, w, e, hmem, hne => by
    cases hmem with
    | head => exact List.mem_cons_self _ _
    | tail _ hm =>
      exact List.mem_cons_of_mem _
        (mem_set_of_ne xs i w e hm (fun h => hne (Nat.succ_lt_succ h)))

theorem mem_eraseIdx_of_ne {α : Type} :
    ∀ (xs : List α) (i : Nat) (e : α), e ∈ xs →
      (∀ h : i < xs.length, e ≠ xs.get ⟨i, h⟩) → e ∈ xs.eraseIdx i
  | [], _, _, hmem, _ => absurd hmem (List.not_mem_nil _)
  | x :: xs, 0, e, hmem, hne => by
    cases hmem with
    | head => exact absurd rfl (hne (by simp))
    | tail _ hm => exact hm
  | x :: xs, i + 1, e, hmem, hne => by
    cases hmem with
    | head => exact List.mem_cons_self _ _
    | tail _ hm =>
      exact List.mem_cons_of_mem _
        (mem_eraseIdx_of_ne xs i e hm (fun h => hne (Nat.succ_lt_succ h)))

/-- C8 counterexample: `upsert` CAN touch data outside the addressed subtree.
First, the claim itself fails: on `{a: [10, 20, 30]}` the request
`POST /a/length` with body `1` reaches `currentObj["length"] = 1` on the array
(`Array.isArray(3)` is false, so the final slot is plainly assigned), which in
JavaScript resizes the array to length 1 — the values at `/a/1` and `/a/2`
are DISCARDED although both paths diverge from the written path
`["a", "length"]`.  Second, even away from `length` the document is not
left with "the same value" everywhere off the path: writing the past-the-end
index `5` of the length-2 array in `{a: [1, 2]}` stores the value and pads
the skipped slots, so the diverging path `/a/3` changes from absent to
`null`. -/
theorem upsert_frame_counterexample :
    (Diverges ["a", "length"] ["a", "1"]
      ∧ getPath (.obj [("a", .arr [.num 10, .num 20, .num 30])]) ["a", "1"]
          = some (.num 20)
      ∧ replaceObjectInNestedArray (.obj [("a", .arr [.num 10, .num 20, .num 30])])
          ["a", "length"] [] (.num 1) = .ok (.obj [("a", .arr [.num 10])])
      ∧ getPath (.obj [("a", .arr [.num 10])]) ["a", "1"] = none)
    ∧ (Diverges ["a", "5"] ["a", "3"]
      ∧ getPath (.obj [("a", .arr [.num 1, .num 2])]) ["a", "3"] = none
      ∧ replaceObjectInNestedArray (.obj [("a", .arr [.num 1, .num 2])])
          ["a", "5"] [] (.num 9)
          = .ok (.obj [("a", .arr [.num 1, .num 2, .null, .null, .null, .num 9])])
      ∧ getPath (.obj [("a", .arr [.num 1, .num 2, .null, .null, .null, .num 9])])
          ["a", "3"] = some .null) := by
  refine ⟨⟨by decide, by decide, by decide, by decide⟩,
          ⟨by decide, by decide, by decide, by decide⟩⟩

/-- C8 amended: `remove` leaves every path diverging from its target path
with its exact value, and `upsert`, provided no written segment is an array's
`length` property, never DISCARDS data outside the addressed subtree: every
value present at a diverging path before the write is still there, unchanged,
afterwards.  (A past-the-end index write additionally CREATES `null` members
at the skipped sibling indices, and writing the segment `length` over an
array resizes it and can discard elements — the counterexample shows both.)
Within the target array, every element not selected by the predicate
(ALL-strict for `upsert`, ALL-loose for `remove`) is still an element of the
target array afterwards. -/
theorem mutation_frame_effect_amended :
    (∀ (d d' : Json) (p : List String) (q : Query) (v : Json),
        "length" ∉ p →
        replaceObjectInNestedArray d p q v = .ok d' →
        ∀ p' w, Diverges p p' → getPath d p' = some w → getPath d' p' = some w)
    ∧ (∀ (d : Json) (p : List String) (q : Query) (p' : List String),
        Diverges p p' →
        getPath (deleteObjectInNestedArray d p q) p' = getPath d p')
    ∧ (∀ (d d' : Json) (p : List String) (q : Query) (v : Json) (xs : List Json),
        q ≠ [] →
        findTargetArray d p = some (.arr xs) →
        replaceObjectInNestedArray d p q v = .ok d' →
        ∃ ys, findTargetArray d' p = some (.arr ys)
          ∧ ∀ e, e ∈ xs → ¬ AllStrictProp q e → e ∈ ys)
    ∧ (∀ (d : Json) (p : List String) (q : Query) (xs : List Json),
        findTargetArray d p = some (.arr xs) →
        ∃ ys, findTargetArray (deleteObjectInNestedArray d p q) p = some (.arr ys)
          ∧ ∀ e, e ∈ xs → ¬ AllLooseProp q e → e ∈ ys) := by
  refine ⟨?_, ?_, ?_, ?_⟩
  · intro d d' p q v hlp h p' w hd hw
    by_cases hq : q.length = 0
    · rw [replaceObjectInNestedArray, if_pos hq] at h
      exact assignPath_getPath_preserve p d v d' hlp h p' w hd hw
    · rw [replaceObjectInNestedArray, if_neg hq] at h
      cases hfta : findTargetArray d p with
      | none =>
        rw [hfta] at h
        have h2 : (Except.ok d : Except JsError Json) = .ok d' := h
        injection h2 with h2
        rw [← h2]
        exact hw
      | some w0 =>
        rw [hfta] at h
        cases w0 with
        | arr xs =>
          have h2 : (match xs.findIdx? (fun item => allKeysStrictMatch item q) with
            | some i => Except.ok (updateTarget d p (.arr (xs.set i v)))
            | none => Except.ok (updateTarget d p (.arr (xs ++ [v])))
            : Except JsError Json) = .ok d' := h
          cases hidx : xs.findIdx? (fun item => allKeysStrictMatch item q) with
          | some i =>
            rw [hidx] at h2
            have h3 : (Except.ok (updateTarget d p (.arr (xs.set i v)))
                : Except JsError Json) = .ok d' := h2
            injection h3 with h3
            rw [← h3,
              updateTarget_getPath_diverge p p' d (.arr (xs.set i v)) ⟨xs, hfta⟩ hd]
            exact hw
          | none =>
            rw [hidx] at h2
            have h3 : (Except.ok (updateTarget d p (.arr (xs ++ [v])))
                : Except JsError Json) = .ok d' := h2
            injection h3 with h3
            rw [← h3,
              updateTarget_getPath_diverge p p' d (.arr (xs ++ [v])) ⟨xs, hfta⟩ hd]
            exact hw
        | null =>
          have h2 : (Except.ok d : Except JsError Json) = .ok d' := h
          injection h2 with h2
          rw [← h2]
          exact hw
        | bool b =>
          have h2 : (Except.ok d : Except JsError Json) = .ok d' := h
          injection h2 with h2
          rw [← h2]
          exact hw
        | num n =>
          have h2 : (Except.ok d : Except JsError Json) = .ok d' := h
          injection h2 with h2
          rw [← h2]
          exact hw
        | str s =>
          have h2 : (Except.ok d : Except JsError Json) = .ok d' := h
          injection h2 with h2
          rw [← h2]
          exact hw
        | obj fs =>
          have h2 : (Except.ok d : Except JsError Json) = .ok d' := h
          injection h2 with h2
          rw [← h2]
          exact hw
  · intro d p q p' hd
    cases hfta : findTargetArray d p with
    | none =>
      have hres : deleteObjectInNestedArray d p q = d := by
        rw [deleteObjectInNestedArray, hfta]
      rw [hres]
    | some w =>
      cases w with
      | arr xs =>
        cases hidx : xs.findIdx? (fun item => allKeysLooseMatch item q) with
        | some i =>
          have hres : deleteObjectInNestedArray d p q
              = updateTarget d p (.arr (xs.eraseIdx i)) := by
            rw [deleteObjectInNestedArray, hfta]
            simp [hidx]
          rw [hres]
          exact updateTarget_getPath_diverge p p' d (.arr (xs.eraseIdx i)) ⟨xs, hfta⟩ hd
        | none =>
          have hres : deleteObjectInNestedArray d p q = d := by
            rw [deleteObjectInNestedArray, hfta]
            simp [hidx]
          rw [hres]
      | null =>
        have hres : deleteObjectInNestedArray d p q = d := by
          rw [deleteObjectInNestedArray, hfta]
        rw [hres]
      | bool b =>
        have hres : deleteObjectInNestedArray d p q = d := by
          rw [deleteObjectInNestedArray, hfta]
        rw [hres]
      | num n =>
        have hres : deleteObjectInNestedArray d p q = d := by
          rw [deleteObjectInNestedArray, hfta]
        rw [hres]
      | str s =>
        have hres : deleteObjectInNestedArray d p q = d := by
          rw [deleteObjectInNestedArray, hfta]
        rw [hres]
      | obj fs =>
        have hres : deleteObjectInNestedArray d p q = d := by
          rw [deleteObjectInNestedArray, hfta]
        rw [hres]
  · intro d d' p q v xs hq hfta h
    have hq0 : ¬ q.length = 0 := fun hl => hq (List.length_eq_zero.mp hl)
    rw [replaceObjectInNestedArray, if_neg hq0, hfta] at h
    have h2 : (match xs.findIdx? (fun item => allKeysStrictMatch item q) with
      | some i => Except.ok (updateTarget d p (.arr (xs.set i v)))
      | none => Except.ok (updateTarget d p (.arr (xs ++ [v])))
      : Except JsError Json) = .ok d' := h
    cases hidx : xs.findIdx? (fun item => allKeysStrictMatch item q) with
    | some i =>
      rw [hidx] at h2
      have h3 : (Except.ok (updateTarget d p (.arr (xs.set i v)))
          : Except JsError Json) = .ok d' := h2
      injection h3 with h3
      refine ⟨xs.set i v, ?_, ?_⟩
      · rw [← h3]
        exact findTargetArray_updateTarget p d xs (.arr (xs.set i v)) hfta
      · intro e hmem hnot
        obtain ⟨hilt, hpi, _⟩ := List.findIdx?_eq_some_iff_getElem.mp hidx
        refine mem_set_of_ne xs i v e hmem ?_
        intro hh hc
        apply hnot
        rw [hc]
        exact (allKeysStrictMatch_iff _ q).mp (by simpa using hpi)
    | none =>
      rw [hidx] at h2
      have h3 : (Except.ok (updateTarget d p (.arr (xs ++ [v])))
          : Except JsError Json) = .ok d' := h2
      injection h3 with h3
      refine ⟨xs ++ [v], ?_, ?_⟩
      · rw [← h3]
        exact findTargetArray_updateTarget p d xs (.arr (xs ++ [v])) hfta
      · intro e hmem _
        exact List.mem_append_left _ hmem
  · intro d p q xs hfta
    cases hidx : xs.findIdx? (fun item => allKeysLooseMatch item q) with
    | some i =>
      have hres : deleteObjectInNestedArray d p q
          = updateTarget d p (.arr (xs.eraseIdx i)) := by
        rw [deleteObjectInNestedArray, hfta]
        simp [hidx]
      refine ⟨xs.eraseIdx i, ?_, ?_⟩
      · rw [hres]
        exact findTargetArray_updateTarget p d xs (.arr (xs.eraseIdx i)) hfta
      · intro e hmem hnot
        obtain ⟨hilt, hpi, _⟩ := List.findIdx?_eq_some_iff_getElem.mp hidx
        refine mem_eraseIdx_of_ne xs i e hmem ?_
        intro hh hc
        apply hnot
        rw [hc]
        exact (allKeysLooseMatch_iff _ q).mp (by simpa using hpi)
    | none =>
      have hres : deleteObjectInNestedArray d p q = d := by
        rw [deleteObjectInNestedArray, hfta]
        simp [hidx]
      rw [hres]
      exact ⟨xs, hfta, fun e hmem _ => hmem⟩

theorem mutation_frame_effect_amended_witness :
    getPath (.obj [("a", .arr [.obj [("id", .str "9")], .obj [("id", .str "2")]]),
                   ("b", .num 5)]) ["b"] = some (.num 5)
    ∧ (getPath (deleteObjectInNestedArray
          (.obj [("a", .arr [.obj [("id", .str "1")], .obj [("id", .str "2")]]),
                 ("b", .num 5)]) ["a"] [("id", "1")]) ["b"]
        = getPath (.obj [("a", .arr [.obj [("id", .str "1")], .obj [("id", .str "2")]]),
                         ("b", .num 5)]) ["b"])
    ∧ (∃ ys, findTargetArray
          (.obj [("a", .arr [.obj [("id", .str "9")], .obj [("id", .str "2")]]),
                 ("b", .num 5)]) ["a"] = some (.arr ys)
        ∧ ∀ e, e ∈ [Json.obj [("id", .str "1")], .obj [("id", .str "2")]] →
            ¬ AllStrictProp [("id", "1")] e → e ∈ ys)
    ∧ (∃ ys, findTargetArray
          (deleteObjectInNestedArray
            (.obj [("a", .arr [.obj [("id", .str "1")], .obj [("id", .str "2")]]),
                   ("b", .num 5)]) ["a"] [("id", "1")]) ["a"] = some (.arr ys)
        ∧ ∀ e, e ∈ [Json.obj [("id", .str "1")], .obj [("id", .str "2")]] →
            ¬ AllLooseProp [("id", "1")] e → e ∈ ys) :=
  ⟨mutation_frame_effect_amended.1
      (.obj [("a", .arr [.obj [("id", .str "1")], .obj [("id", .str "2")]]),
             ("b", .num 5)])
      (.obj [("a", .arr [.obj [("id", .str "9")], .obj [("id", .str "2")]]),
             ("b", .num 5)])
      ["a"] [("id", "1")] (.obj [("id", .str "9")]) (by decide) (by decide)
      ["b"] (.num 5) (by decide) (by decide),
   mutation_frame_effect_amended.2.1
      (.obj [("a", .arr [.obj [("id", .str "1")], .obj [("id", .str "2")]]),
             ("b", .num 5)])
      ["a"] [("id", "1")] ["b"] (by decide),
   mutation_frame_effect_amended.2.2.1
      (.obj [("a", .arr [.obj [("id", .str "1")], .obj [("id", .str "2")]]),
             ("b", .num 5)])
      (.obj [("a", .arr [.obj [("id", .str "9")], .obj [("id", .str "2")]]),
             ("b", .num 5)])
      ["a"] [("id", "1")] (.obj [("id", .str "9")])
      [.obj [("id", .str "1")], .obj [("id", .str "2")]]
      (by decide) (by decide) (by decide),
   mutation_frame_effect_amended.2.2.2
      (.obj [("a", .arr [.obj [("id", .str "1")], .obj [("id", .str "2")]]),
             ("b", .num 5)])
      ["a"] [("id", "1")]
      [.obj [("id", .str "1")], .obj [("id", .str "2")]]
      (by decide)⟩

end JsonMockify
